import Mathlib

/-!
Verification of the `cache-more` key-value cache plugins: the TxtDB
(record-log) backend, the IniDB (INI codec) backend, and the LevelDB
backend, together with the shared debounced-flush discipline and the
`forEach` helper of the abstract `Cache` service.

JavaScript objects created with `Object.create(null)` are modelled as
association lists in insertion order (`Dict`); the generic
data-interchange encoding (`JSON.stringify` / `JSON.parse`) is modelled
executably over an inductive value type `JValue` whose numbers are
integers (float formatting is outside the model; every claim below is
settled on integer-valued inputs).
-/

set_option maxHeartbeats 1000000

/-! ### JavaScript object model

The file-backed backends keep their data in prototype-free objects
(`Object.create(null)`, `cache-txtdb/src/index.ts:54`, `:128-131`),
whose string properties enumerate in insertion order.  `Dict α` is such
an object; `objGet`/`objSet`/`objDel` are property read, assignment and
`delete`.  (The JS reordering of integer-like property names is not
modelled; no claim depends on it.) -/

/-- A prototype-free JS object: own properties in insertion order. -/
abbrev Dict (α : Type) : Type := List (String × α)

/-- Property read `o[k]`: `undefined` (`none`) when the key is absent. -/
def objGet {α : Type} (o : Dict α) (k : String) : Option α :=
  match o with
  | [] => none
  | (k', v) :: rest => if k' = k then some v else objGet rest k

/-- Property assignment `o[k] = v`: overwrite in place, else append. -/
def objSet {α : Type} (o : Dict α) (k : String) (v : α) : Dict α :=
  match o with
  | [] => [(k, v)]
  | (k', v') :: rest => if k' = k then (k', v) :: rest else (k', v') :: objSet rest k v

/-- Property removal `delete o[k]`. -/
def objDel {α : Type} (o : Dict α) (k : String) : Dict α :=
  match o with
  | [] => []
  | (k', v') :: rest => if k' = k then rest else (k', v') :: objDel rest k

/-- `k in o` : whether the property exists. -/
def objHas {α : Type} (o : Dict α) (k : String) : Bool :=
  (objGet o k).isSome

/-- The two-level in-memory mapping of the file backends:
`store : Dict<Dict<any>>` (table name → key → value). -/
abbrev Store (α : Type) : Type := Dict (Dict α)

theorem objGet_set_self {α : Type} (o : Dict α) (k : String) (v : α) :
    objGet (objSet o k v) k = some v := by
  induction o with
  | nil => simp [objGet, objSet]
  | cons kv rest ih =>
      obtain ⟨k', v'⟩ := kv
      by_cases h : k' = k <;> simp [objGet, objSet, h, ih]

theorem objGet_set_other {α : Type} (o : Dict α) (k k' : String) (v : α)
    (h : k' ≠ k) : objGet (objSet o k v) k' = objGet o k' := by
  have h' : k ≠ k' := Ne.symm h
  induction o with
  | nil => simp [objGet, objSet, h']
  | cons kv rest ih =>
      obtain ⟨k0, v0⟩ := kv
      by_cases h0 : k0 = k
      · subst h0
        simp [objGet, objSet, h']
      · by_cases h1 : k0 = k' <;> simp [objGet, objSet, h0, h1, ih, h]

theorem objGet_del_self {α : Type} (o : Dict α) (k : String)
    (hnd : (o.map Prod.fst).Nodup) : objGet (objDel o k) k = none := by
  induction o with
  | nil => simp [objGet, objDel]
  | cons kv rest ih =>
      obtain ⟨k0, v0⟩ := kv
      simp only [List.map_cons, List.nodup_cons] at hnd
      by_cases h0 : k0 = k
      · subst h0
        simp only [objDel, if_pos rfl]
        -- the key occurs nowhere in the tail
        clear ih
        induction rest with
        | nil => simp [objGet]
        | cons kv' rest' ih' =>
            obtain ⟨k1, v1⟩ := kv'
            simp only [List.map_cons, List.mem_cons, List.nodup_cons] at hnd
            have hk1 : k1 ≠ k0 := fun h => hnd.1 (Or.inl h.symm)
            simp only [objGet, if_neg hk1]
            exact ih' ⟨fun h => hnd.1 (Or.inr h), hnd.2.2⟩
      · simp only [objDel, if_neg h0, objGet, if_neg h0]
        exact ih hnd.2

theorem objGet_del_other {α : Type} (o : Dict α) (k k' : String)
    (h : k' ≠ k) : objGet (objDel o k) k' = objGet o k' := by
  have h' : k ≠ k' := Ne.symm h
  induction o with
  | nil => simp [objGet, objDel]
  | cons kv rest ih =>
      obtain ⟨k0, v0⟩ := kv
      by_cases h0 : k0 = k
      · subst h0
        simp [objGet, objDel, h']
      · by_cases h1 : k0 = k' <;> simp [objGet, objDel, h0, h1, ih, h]

/-! ### The generic data-interchange encoding

`JValue` is a JSON value with integer numbers.  `JSON.stringify`
produces the canonical JS serialization (no added whitespace; `"`, `\`
and control characters escaped); `JSON.parse` is a fuel-indexed
recursive-descent parser for the JSON grammar restricted to integer
numerals, returning `none` exactly where `JSON.parse` would throw.
Fractional and exponent numerals, which the model's value type cannot
carry, are rejected rather than read. -/

inductive JValue : Type where
  | null : JValue
  | bool : Bool → JValue
  | num : Int → JValue
  | str : String → JValue
  | arr : List JValue → JValue
  | obj : List (String × JValue) → JValue
deriving Repr, Inhabited

namespace JSON

/-- Decimal digits, most significant first (fuel-indexed so that the
definition is structural and reduces; `decChars` supplies enough fuel). -/
def decCharsAux : Nat → Nat → List Char
  | 0, _ => []
  | fuel + 1, n =>
      if n < 10 then [Char.ofNat (48 + n)]
      else decCharsAux fuel (n / 10) ++ [Char.ofNat (48 + n % 10)]

/-- Decimal digits of `n`, most significant first. -/
def decChars (n : Nat) : List Char := decCharsAux (n + 1) n

/-- Characters of an integer numeral: optional sign, then digits. -/
def intChars (i : Int) : List Char :=
  (if i < 0 then ['-'] else []) ++ decChars i.natAbs

/-- `n % 16` as a lowercase hexadecimal digit. -/
def hexChar (n : Nat) : Char :=
  if n % 16 < 10 then Char.ofNat (48 + n % 16) else Char.ofNat (87 + n % 16)

/-- How `JSON.stringify` emits one character of a string: `"` and `\`
get a backslash, the named control characters use their short escapes,
the remaining control characters use `\u00..`, everything else is
itself. -/
def escChar (c : Char) : List Char :=
  if c = '"' then ['\\', '"']
  else if c = '\\' then ['\\', '\\']
  else if c = '\x08' then ['\\', 'b']
  else if c = '\x09' then ['\\', 't']
  else if c = '\x0a' then ['\\', 'n']
  else if c = '\x0c' then ['\\', 'f']
  else if c = '\x0d' then ['\\', 'r']
  else if c.toNat < 32 then ['\\', 'u', '0', '0', hexChar (c.toNat / 16), hexChar c.toNat]
  else [c]

/-- Characters of a serialized string, quotes included. -/
def strChars (s : String) : List Char :=
  '"' :: (s.data.flatMap escChar ++ ['"'])

mutual

/-- Characters of `JSON.stringify v` (canonical form, no whitespace). -/
def valChars : JValue → List Char
  | .null => "null".data
  | .bool true => "true".data
  | .bool false => "false".data
  | .num i => intChars i
  | .str s => strChars s
  | .arr es => '[' :: (arrChars es ++ [']'])
  | .obj ms => '\x7b' :: (objChars ms ++ ['\x7d'])

/-- Comma-separated element list of an array. -/
def arrChars : List JValue → List Char
  | [] => []
  | [e] => valChars e
  | e :: es => valChars e ++ ',' :: arrChars es

/-- Comma-separated member list of an object. -/
def objChars : List (String × JValue) → List Char
  | [] => []
  | [(k, v)] => strChars k ++ ':' :: valChars v
  | (k, v) :: ms => strChars k ++ ':' :: valChars v ++ ',' :: objChars ms

end

/-- `JSON.stringify` (restricted to the modelled value type). -/
def stringify (v : JValue) : String := ⟨valChars v⟩

end JSON

namespace JSON

/-- Whitespace the JSON grammar allows between tokens. -/
def jsonWs (c : Char) : Bool :=
  c = ' ' || c = '\x09' || c = '\x0a' || c = '\x0d'

/-- Skip inter-token whitespace. -/
def dropWs (l : List Char) : List Char := l.dropWhile jsonWs

/-- ASCII decimal digit. -/
def isDigitCh (c : Char) : Bool := 48 ≤ c.toNat && c.toNat ≤ 57

/-- Maximal digit run at the head of the input. -/
def spanDigits : List Char → List Char × List Char
  | [] => ([], [])
  | c :: cs =>
      if isDigitCh c then
        let p := spanDigits cs
        (c :: p.1, p.2)
      else ([], c :: cs)

/-- Numeric value of a digit run. -/
def digitsVal (ds : List Char) : Nat :=
  ds.foldl (fun a c => a * 10 + (c.toNat - 48)) 0

/-- Read an integer numeral: optional minus sign, digit run with no
leading zero.  A following `.`/`e`/`E` would start a fractional or
exponent part, which the integer-valued model cannot carry: the model
rejects there instead of reading a float. -/
def readIntNum (l : List Char) : Option (Int × List Char) :=
  let neg : Bool := l.head? = some '-'
  let l1 : List Char := if neg then l.tail else l
  let p := spanDigits l1
  if p.1.isEmpty then none
  else if 1 < p.1.length && p.1.head? = some '0' then none
  else if p.2.head? = some '.' || p.2.head? = some 'e' || p.2.head? = some 'E' then none
  else some (if neg then -(digitsVal p.1 : Int) else (digitsVal p.1 : Int), p.2)

/-- Value of one hexadecimal digit character. -/
def hexVal? (c : Char) : Option Nat :=
  if 48 ≤ c.toNat && c.toNat ≤ 57 then some (c.toNat - 48)
  else if 97 ≤ c.toNat && c.toNat ≤ 102 then some (c.toNat - 87)
  else if 65 ≤ c.toNat && c.toNat ≤ 70 then some (c.toNat - 55)
  else none

/-- The character a single-letter JSON escape denotes. -/
def unescChar (c : Char) : Option Char :=
  if c = '"' then some '"'
  else if c = '\\' then some '\\'
  else if c = '/' then some '/'
  else if c = 'b' then some '\x08'
  else if c = 'f' then some '\x0c'
  else if c = 'n' then some '\x0a'
  else if c = 'r' then some '\x0d'
  else if c = 't' then some '\x09'
  else none

/-- Read a string body after the opening quote: escapes are decoded,
raw control characters are rejected, the closing quote ends it.  The
fuel is structural bookkeeping only; any fuel above the input length
behaves identically. -/
def readStr : Nat → List Char → List Char → Option (String × List Char)
  | 0, _, _ => none
  | _ + 1, _, [] => none
  | fuel + 1, acc, c :: cs =>
      if c = '"' then some (⟨acc.reverse⟩, cs)
      else if c = '\\' then
        match cs with
        | 'u' :: a :: b :: c1 :: d :: rest =>
            match hexVal? a, hexVal? b, hexVal? c1, hexVal? d with
            | some ha, some hb, some hc, some hd =>
                readStr fuel (Char.ofNat (((ha * 16 + hb) * 16 + hc) * 16 + hd) :: acc) rest
            | _, _, _, _ => none
        | e :: rest =>
            match unescChar e with
            | some ch => readStr fuel (ch :: acc) rest
            | none => none
        | [] => none
      else if c.toNat < 32 then none
      else readStr fuel (c :: acc) cs

mutual

/-- Read one JSON value (fuel-indexed recursive descent). -/
def readVal : Nat → List Char → Option (JValue × List Char)
  | 0, _ => none
  | fuel + 1, l =>
      match dropWs l with
      | 'n' :: 'u' :: 'l' :: 'l' :: r => some (.null, r)
      | 't' :: 'r' :: 'u' :: 'e' :: r => some (.bool true, r)
      | 'f' :: 'a' :: 'l' :: 's' :: 'e' :: r => some (.bool false, r)
      | '"' :: r =>
          match readStr (r.length + 1) [] r with
          | some (s, r') => some (.str s, r')
          | none => none
      | '[' :: r =>
          match dropWs r with
          | ']' :: r' => some (.arr [], r')
          | r1 =>
              match readElems fuel r1 with
              | some (es, r') => some (.arr es, r')
              | none => none
      | '\x7b' :: r =>
          match dropWs r with
          | '\x7d' :: r' => some (.obj [], r')
          | r1 =>
              match readMembers fuel r1 with
              | some (ms, r') => some (.obj ms, r')
              | none => none
      | l1 =>
          match readIntNum l1 with
          | some (i, r) => some (.num i, r)
          | none => none

/-- Read the elements of a non-empty array, up to and including `]`. -/
def readElems : Nat → List Char → Option (List JValue × List Char)
  | 0, _ => none
  | fuel + 1, l =>
      match readVal fuel l with
      | none => none
      | some (v, r) =>
          match dropWs r with
          | ',' :: r' =>
              match readElems fuel r' with
              | some (vs, r'') => some (v :: vs, r'')
              | none => none
          | ']' :: r' => some ([v], r')
          | _ => none

/-- Read the members of a non-empty object, up to and including the
closing brace. -/
def readMembers : Nat → List Char → Option (List (String × JValue) × List Char)
  | 0, _ => none
  | fuel + 1, l =>
      match dropWs l with
      | '"' :: r =>
          match readStr (r.length + 1) [] r with
          | none => none
          | some (k, r1) =>
              match dropWs r1 with
              | ':' :: r2 =>
                  match readVal fuel r2 with
                  | none => none
                  | some (v, r3) =>
                      match dropWs r3 with
                      | ',' :: r4 =>
                          match readMembers fuel r4 with
                          | some (ms, r5) => some ((k, v) :: ms, r5)
                          | none => none
                      | '\x7d' :: r4 => some ([(k, v)], r4)
                      | _ => none
              | _ => none
      | _ => none

end

/-- `JSON.parse`: read one value, allow trailing whitespace only;
`none` where the JS builtin throws. -/
def parse (s : String) : Option JValue :=
  match readVal (2 * s.data.length + 2) s.data with
  | some (v, r) => if dropWs r = [] then some v else none
  | none => none

end JSON

/-! ### Round trip of the data-interchange encoding -/

namespace JSON

theorem ne_char_of_toNat {c d : Char} (h : c.toNat ≠ d.toNat) : c ≠ d :=
  fun he => h (he ▸ rfl)

theorem decCharsAux_congr :
    ∀ n fuel fuel', n < fuel → n < fuel' → decCharsAux fuel n = decCharsAux fuel' n := by
  intro n
  induction n using Nat.strong_induction_on with
  | _ n ih =>
    intro fuel fuel' h h'
    match fuel, fuel' with
    | f + 1, g + 1 =>
      simp only [decCharsAux]
      by_cases h10 : n < 10
      · simp [h10]
      · have hdiv : n / 10 < n := Nat.div_lt_self (by omega) (by omega)
        simp only [if_neg h10]
        rw [ih (n / 10) hdiv f g (by omega) (by omega)]

/-- One unfolding of `decChars`. -/
theorem decChars_unfold (n : Nat) :
    decChars n
      = if n < 10 then [Char.ofNat (48 + n)]
        else decChars (n / 10) ++ [Char.ofNat (48 + n % 10)] := by
  show decCharsAux (n + 1) n = _
  simp only [decCharsAux]
  by_cases h10 : n < 10
  · simp [h10]
  · have hdiv : n / 10 < n := Nat.div_lt_self (by omega) (by omega)
    simp only [if_neg h10]
    rw [decCharsAux_congr (n / 10) n (n / 10 + 1) (by omega) (by omega)]
    rfl

theorem decChars_ne_nil (n : Nat) : decChars n ≠ [] := by
  rw [decChars_unfold]
  by_cases h : n < 10 <;> simp [h]

/-- The ten decimal digit characters, concretely. -/
theorem digit_char_cases {d : Nat} (h : d < 10) :
    isDigitCh (Char.ofNat (48 + d)) = true ∧ (Char.ofNat (48 + d)).toNat = 48 + d
    ∧ (Char.ofNat (48 + d) = '0' ↔ d = 0) := by
  interval_cases d <;> exact ⟨by decide, by decide, by decide⟩

theorem decChars_digits (n : Nat) : ∀ c ∈ decChars n, isDigitCh c = true := by
  induction n using Nat.strong_induction_on with
  | _ n ih =>
    rw [decChars_unfold]
    by_cases h10 : n < 10
    · simp only [if_pos h10, List.mem_singleton]
      rintro c rfl
      exact (digit_char_cases h10).1
    · have hdiv : n / 10 < n := Nat.div_lt_self (by omega) (by omega)
      simp only [if_neg h10, List.mem_append, List.mem_singleton]
      rintro c (hc | rfl)
      · exact ih (n / 10) hdiv c hc
      · exact (digit_char_cases (Nat.mod_lt n (by omega))).1

/-- Everything a digit character is not. -/
theorem digit_char_props {c : Char} (h : isDigitCh c = true) :
    jsonWs c = false ∧ c ≠ 'n' ∧ c ≠ 't' ∧ c ≠ 'f' ∧ c ≠ '"' ∧ c ≠ '['
      ∧ c ≠ '\x7b' ∧ c ≠ ']' ∧ c ≠ '\x7d' ∧ c ≠ '-' ∧ c ≠ '.' ∧ c ≠ 'e'
      ∧ c ≠ 'E' ∧ c ≠ ',' ∧ c ≠ ':' := by
  simp only [isDigitCh, Bool.and_eq_true, decide_eq_true_eq] at h
  obtain ⟨h1, h2⟩ := h
  have hc := Char.ofNat_toNat c
  have hd : c.toNat = 48 ∨ c.toNat = 49 ∨ c.toNat = 50 ∨ c.toNat = 51 ∨ c.toNat = 52
      ∨ c.toNat = 53 ∨ c.toNat = 54 ∨ c.toNat = 55 ∨ c.toNat = 56 ∨ c.toNat = 57 := by
    omega
  rcases hd with hd | hd | hd | hd | hd | hd | hd | hd | hd | hd <;>
    (rw [hd] at hc; rw [← hc]; decide)

theorem digitsVal_snoc (xs : List Char) (c : Char) :
    digitsVal (xs ++ [c]) = 10 * digitsVal xs + (c.toNat - 48) := by
  simp [digitsVal, List.foldl_append]
  omega

theorem digitsVal_decChars (n : Nat) : digitsVal (decChars n) = n := by
  induction n using Nat.strong_induction_on with
  | _ n ih =>
    rw [decChars_unfold]
    by_cases h10 : n < 10
    · simp only [if_pos h10]
      have := (digit_char_cases h10).2.1
      simp [digitsVal]
      omega
    · have hdiv : n / 10 < n := Nat.div_lt_self (by omega) (by omega)
      simp only [if_neg h10]
      rw [digitsVal_snoc, ih (n / 10) hdiv, (digit_char_cases (Nat.mod_lt n (by omega))).2.1]
      omega

theorem decChars_head_zero {n : Nat} (h : (decChars n).head? = some '0') : n = 0 := by
  induction n using Nat.strong_induction_on with
  | _ n ih =>
    rw [decChars_unfold] at h
    by_cases h10 : n < 10
    · simp only [if_pos h10, List.head?_cons] at h
      exact (digit_char_cases h10).2.2.mp (Option.some.inj h)
    · have hdiv : n / 10 < n := Nat.div_lt_self (by omega) (by omega)
      simp only [if_neg h10] at h
      rw [List.head?_append_of_ne_nil (decChars (n / 10)) (decChars_ne_nil _)] at h
      have := ih (n / 10) hdiv h
      omega

/-- `decChars` never both has several digits and starts with `'0'`. -/
theorem decChars_no_leading_zero (n : Nat) :
    (1 < (decChars n).length && (decChars n).head? = some '0') = false := by
  by_cases hz : (decChars n).head? = some '0'
  · have : n = 0 := decChars_head_zero hz
    subst this
    decide
  · simp [hz]

theorem spanDigits_of_digits (ds rest : List Char)
    (hds : ∀ c ∈ ds, isDigitCh c = true)
    (hrest : ∀ c t, rest = c :: t → isDigitCh c = false) :
    spanDigits (ds ++ rest) = (ds, rest) := by
  induction ds with
  | nil =>
      match rest with
      | [] => rfl
      | c :: t => simp [spanDigits, hrest c t rfl]
  | cons c cs ih =>
      have hc : isDigitCh c = true := hds c (by simp)
      have := ih (fun x hx => hds x (by simp [hx]))
      simp [spanDigits, hc, this]

end JSON

namespace JSON

/-- A remainder that cannot extend a numeral: empty, or headed by a
character that is neither a digit nor `.`/`e`/`E`. -/
def numDelim (l : List Char) : Prop :=
  ∀ c t, l = c :: t → isDigitCh c = false ∧ c ≠ '.' ∧ c ≠ 'e' ∧ c ≠ 'E'

theorem readIntNum_intChars (i : Int) (rest : List Char) (h : numDelim rest) :
    readIntNum (intChars i ++ rest) = some (i, rest) := by
  have hspan : spanDigits (decChars i.natAbs ++ rest) = (decChars i.natAbs, rest) :=
    spanDigits_of_digits _ _ (decChars_digits _) (fun c t ht => ((h c t ht).1))
  obtain ⟨c0, t0, he⟩ := List.exists_cons_of_ne_nil (decChars_ne_nil i.natAbs)
  have hnz : 1 < (decChars i.natAbs).length → ¬(decChars i.natAbs).head? = some '0' := by
    intro hlen hz
    have h0 := decChars_head_zero hz
    rw [h0] at hlen
    simp [decChars, decCharsAux] at hlen
  have hdelim : ¬rest.head? = some '.' ∧ ¬rest.head? = some 'e' ∧ ¬rest.head? = some 'E' := by
    match rest, h with
    | [], _ => exact ⟨by simp, by simp, by simp⟩
    | c :: t, h =>
        obtain ⟨hd, h1, h2, h3⟩ := h c t rfl
        exact ⟨by simp [h1], by simp [h2], by simp [h3]⟩
  by_cases hi : i < 0
  · have harg : intChars i ++ rest = '-' :: (decChars i.natAbs ++ rest) := by
      simp [intChars, hi]
    have hival : -((i.natAbs : Nat) : Int) = i := by omega
    rw [harg]
    simp [readIntNum, hspan, decChars_ne_nil, hnz, hdelim.1, hdelim.2.1, hdelim.2.2,
      digitsVal_decChars, hival]
    exact ⟨hnz, by rw [Int.abs_eq_natAbs]; exact hival⟩
  · have hc0 : isDigitCh c0 = true := decChars_digits _ c0 (he ▸ List.mem_cons_self _ _)
    have hnm : c0 ≠ '-' := (digit_char_props hc0).2.2.2.2.2.2.2.2.2.1
    have harg : intChars i ++ rest = c0 :: (t0 ++ rest) := by
      simp [intChars, hi, he]
    have hspan' : spanDigits (c0 :: (t0 ++ rest)) = (c0 :: t0, rest) := by
      rw [← List.cons_append, ← he, hspan, he]
    have hnz' : 1 < (c0 :: t0).length → ¬(c0 :: t0).head? = some '0' := he ▸ hnz
    have hdv : digitsVal (c0 :: t0) = i.natAbs := by rw [← he, digitsVal_decChars]
    have hival : ((i.natAbs : Nat) : Int) = i := by omega
    rw [harg]
    simp [readIntNum, hspan', hnm, hnz', hdelim.1, hdelim.2.1, hdelim.2.2, hdv, hival]
    intro hl hc
    exact hnz' (by simp; omega) (by simp [hc])

end JSON

namespace JSON

theorem hexVal?_hexChar (m : Nat) : hexVal? (hexChar m) = some (m % 16) := by
  have h16 : m % 16 < 16 := Nat.mod_lt _ (by omega)
  have hd : m % 16 = 0 ∨ m % 16 = 1 ∨ m % 16 = 2 ∨ m % 16 = 3 ∨ m % 16 = 4 ∨ m % 16 = 5
      ∨ m % 16 = 6 ∨ m % 16 = 7 ∨ m % 16 = 8 ∨ m % 16 = 9 ∨ m % 16 = 10 ∨ m % 16 = 11
      ∨ m % 16 = 12 ∨ m % 16 = 13 ∨ m % 16 = 14 ∨ m % 16 = 15 := by omega
  rcases hd with hd | hd | hd | hd | hd | hd | hd | hd | hd | hd | hd | hd | hd | hd | hd | hd <;>
    (simp only [hexChar, hd]; decide)

theorem readStr_escChar (fuel : Nat) (acc : List Char) (c : Char) (rest : List Char) :
    readStr (fuel + 1) acc (escChar c ++ rest) = readStr fuel (c :: acc) rest := by
  by_cases h1 : c = '"'
  · subst h1; simp [escChar, readStr, unescChar]
  by_cases h2 : c = '\\'
  · subst h2; simp [escChar, h1, readStr, unescChar]
  by_cases h3 : c = '\x08'
  · subst h3; simp [escChar, h1, h2, readStr, unescChar]
  by_cases h4 : c = '\x09'
  · subst h4; simp [escChar, h1, h2, h3, readStr, unescChar]
  by_cases h5 : c = '\x0a'
  · subst h5; simp [escChar, h1, h2, h3, h4, readStr, unescChar]
  by_cases h6 : c = '\x0c'
  · subst h6; simp [escChar, h1, h2, h3, h4, h5, readStr, unescChar]
  by_cases h7 : c = '\x0d'
  · subst h7; simp [escChar, h1, h2, h3, h4, h5, h6, readStr, unescChar]
  by_cases hlt : c.toNat < 32
  · have hescape : escChar c
        = ['\\', 'u', '0', '0', hexChar (c.toNat / 16), hexChar c.toNat] := by
      simp [escChar, h1, h2, h3, h4, h5, h6, h7, hlt]
    rw [hescape]
    show readStr (fuel + 1) acc
        ('\\' :: 'u' :: '0' :: '0' :: hexChar (c.toNat / 16) :: hexChar c.toNat :: rest)
      = readStr fuel (c :: acc) rest
    simp only [readStr, hexVal?_hexChar]
    norm_num
    have harith : ((0 * 16 + 0) * 16 + c.toNat / 16 % 16) * 16 + c.toNat % 16 = c.toNat := by
      omega
    rw [show hexVal? '0' = some 0 from by decide]
    simp only [harith, Char.ofNat_toNat]
    simp
  · have hescape : escChar c = [c] := by
      simp [escChar, h1, h2, h3, h4, h5, h6, h7, hlt]
    rw [hescape]
    show readStr (fuel + 1) acc (c :: rest) = readStr fuel (c :: acc) rest
    simp [readStr, h1, h2, hlt]

theorem readStr_escBody (cs : List Char) :
    ∀ (fuel : Nat) (acc rest : List Char), cs.length < fuel →
      readStr fuel acc (cs.flatMap escChar ++ '"' :: rest)
        = some (⟨acc.reverse ++ cs⟩, rest) := by
  induction cs with
  | nil =>
      intro fuel acc rest hf
      match fuel, hf with
      | f + 1, _ => simp [readStr]
  | cons c cs ih =>
      intro fuel acc rest hf
      match fuel, hf with
      | f + 1, hf =>
        rw [List.flatMap_cons, List.append_assoc, readStr_escChar]
        rw [ih f (c :: acc) rest (by simp only [List.length_cons] at hf; omega)]
        simp

theorem escChar_length_pos (c : Char) : 1 ≤ (escChar c).length := by
  simp only [escChar]
  split_ifs <;> simp

theorem length_le_flatMap_escChar (l : List Char) :
    l.length ≤ (l.flatMap escChar).length := by
  induction l with
  | nil => simp
  | cons c cs ih =>
      have := escChar_length_pos c
      simp only [List.flatMap_cons, List.length_append, List.length_cons]
      omega

theorem readStr_strBody (s : String) (rest : List Char) (fuel : Nat)
    (hf : (s.data.flatMap escChar).length < fuel) :
    readStr fuel [] (s.data.flatMap escChar ++ '"' :: rest) = some (s, rest) := by
  rw [readStr_escBody s.data fuel [] rest (by
    have := length_le_flatMap_escChar s.data
    omega)]
  simp

end JSON

namespace JSON

mutual

/-- Fuel needed by `readVal` on a rendered value. -/
def jsize : JValue → Nat
  | .null => 1
  | .bool _ => 1
  | .num _ => 1
  | .str _ => 1
  | .arr es => 1 + lsize es
  | .obj ms => 1 + msize ms

/-- Fuel needed by `readElems` on a rendered element list. -/
def lsize : List JValue → Nat
  | [] => 1
  | e :: es => 1 + jsize e + lsize es

/-- Fuel needed by `readMembers` on a rendered member list. -/
def msize : List (String × JValue) → Nat
  | [] => 1
  | (_, v) :: ms => 1 + jsize v + msize ms

end

theorem dropWs_cons {c : Char} (t : List Char) (h : jsonWs c = false) :
    dropWs (c :: t) = c :: t := by
  simp [dropWs, List.dropWhile_cons, h]

/-- `numDelim` holds of any remainder headed by a delimiter character. -/
theorem numDelim_cons {c : Char} (l : List Char)
    (h : isDigitCh c = false ∧ c ≠ '.' ∧ c ≠ 'e' ∧ c ≠ 'E') : numDelim (c :: l) :=
  fun _ _ h' => by
    injection h' with h1 _
    subst h1
    exact h

theorem numDelim_nil : numDelim [] := fun _ _ h => nomatch h

theorem intChars_head (i : Int) :
    ∃ c t, intChars i = c :: t ∧ jsonWs c = false ∧ c ≠ 'n' ∧ c ≠ 't' ∧ c ≠ 'f'
      ∧ c ≠ '"' ∧ c ≠ '[' ∧ c ≠ '\x7b' ∧ c ≠ ']' := by
  by_cases hi : i < 0
  · exact ⟨'-', decChars i.natAbs, by simp [intChars, hi], by decide, by decide, by decide,
      by decide, by decide, by decide, by decide, by decide⟩
  · obtain ⟨c0, t0, he⟩ := List.exists_cons_of_ne_nil (decChars_ne_nil i.natAbs)
    have hc0 : isDigitCh c0 = true := decChars_digits _ c0 (he ▸ List.mem_cons_self _ _)
    have hp := digit_char_props hc0
    exact ⟨c0, t0, by simp [intChars, hi, he], hp.1, hp.2.1, hp.2.2.1, hp.2.2.2.1,
      hp.2.2.2.2.1, hp.2.2.2.2.2.1, hp.2.2.2.2.2.2.1, hp.2.2.2.2.2.2.2.1⟩

/-- Every rendered value starts with a non-whitespace character that
closes no bracket. -/
theorem valChars_head (v : JValue) :
    ∃ c t, valChars v = c :: t ∧ jsonWs c = false ∧ c ≠ ']' := by
  cases v with
  | null => exact ⟨'n', _, rfl, by decide, by decide⟩
  | bool b =>
      cases b with
      | true => exact ⟨'t', _, rfl, by decide, by decide⟩
      | false => exact ⟨'f', _, rfl, by decide, by decide⟩
  | num i =>
      obtain ⟨c, t, he, hws, _, _, _, _, _, _, hnb⟩ := intChars_head i
      exact ⟨c, t, by simp [valChars, he], hws, hnb⟩
  | str s => exact ⟨'"', _, rfl, by decide, by decide⟩
  | arr es => exact ⟨'[', _, rfl, by decide, by decide⟩
  | obj ms => exact ⟨'\x7b', _, rfl, by decide, by decide⟩

/-- `arrChars` of a non-empty list starts with its first element. -/
theorem arrChars_cons_eq (e : JValue) (es : List JValue) :
    ∃ tail, arrChars (e :: es) = valChars e ++ tail := by
  cases es with
  | nil => exact ⟨[], by simp [arrChars]⟩
  | cons x xs => exact ⟨',' :: arrChars (x :: xs), rfl⟩

/-- A value whose input is headed by none of the structured openers is
read through `readIntNum`. -/
theorem readVal_num_dispatch (fuel : Nat) (ch : Char) (t : List Char)
    (hws : jsonWs ch = false) (hn : ch ≠ 'n') (ht : ch ≠ 't') (hf : ch ≠ 'f')
    (hq : ch ≠ '"') (hbk : ch ≠ '[') (hbc : ch ≠ '\x7b') :
    readVal (fuel + 1) (ch :: t)
      = match readIntNum (ch :: t) with
        | some (i, r) => some (.num i, r)
        | none => none := by
  simp only [readVal, dropWs_cons t hws]
  split
  all_goals first
    | rfl
    | simp_all

/-- The parser's array branch on a non-empty rendered array hands the
whole element list to `readElems`. -/
theorem readVal_arr_dispatch (fuel : Nat) (e : JValue) (es : List JValue) (rest : List Char) :
    readVal (fuel + 1) ('[' :: (arrChars (e :: es) ++ ']' :: rest))
      = match readElems fuel (arrChars (e :: es) ++ ']' :: rest) with
        | some (vs, r') => some (.arr vs, r')
        | none => none := by
  obtain ⟨c, t, hvc, hws, hnb⟩ := valChars_head e
  obtain ⟨tail, htail⟩ := arrChars_cons_eq e es
  have hshape : arrChars (e :: es) ++ ']' :: rest = c :: (t ++ tail ++ ']' :: rest) := by
    rw [htail, hvc]
    simp
  rw [hshape]
  show (match dropWs (c :: (t ++ tail ++ ']' :: rest)) with
      | ']' :: r' => some (JValue.arr [], r')
      | r1 =>
          match readElems fuel r1 with
          | some (es, r') => some (JValue.arr es, r')
          | none => none) = _
  rw [dropWs_cons _ hws]
  split
  · rename_i heq
    injection heq with h1 _
    exact absurd h1 hnb
  · rename_i hne
    rfl

/-- The parser's object branch on a non-empty rendered object hands the
whole member list to `readMembers`. -/
theorem readVal_obj_dispatch (fuel : Nat) (k : String) (v : JValue)
    (ms : List (String × JValue)) (rest : List Char) :
    readVal (fuel + 1) ('\x7b' :: (objChars ((k, v) :: ms) ++ '\x7d' :: rest))
      = match readMembers fuel (objChars ((k, v) :: ms) ++ '\x7d' :: rest) with
        | some (ms', r') => some (.obj ms', r')
        | none => none := by
  have hshape : ∃ tail, objChars ((k, v) :: ms) ++ '\x7d' :: rest = '"' :: tail := by
    cases ms with
    | nil =>
        refine ⟨k.data.flatMap escChar ++ '"' :: ':' :: (valChars v ++ '\x7d' :: rest), ?_⟩
        simp [objChars, strChars]
    | cons kv ms' =>
        refine ⟨k.data.flatMap escChar
          ++ '"' :: ':' :: (valChars v ++ ',' :: (objChars (kv :: ms') ++ '\x7d' :: rest)), ?_⟩
        simp [objChars, strChars]
  obtain ⟨tail, htail⟩ := hshape
  rw [htail]
  show (match dropWs ('"' :: tail) with
      | '\x7d' :: r' => some (JValue.obj [], r')
      | r1 =>
          match readMembers fuel r1 with
          | some (ms', r') => some (JValue.obj ms', r')
          | none => none) = _
  rw [dropWs_cons _ (by decide)]
  rfl

end JSON

namespace JSON

mutual

/-- Reading a rendered value recovers it, given fuel at least `jsize`. -/
theorem rtVal : ∀ (v : JValue) (fuel : Nat) (rest : List Char),
    jsize v ≤ fuel → numDelim rest →
    readVal fuel (valChars v ++ rest) = some (v, rest)
  | .null, fuel, rest, hs, _ => by
      cases fuel with
      | zero => simp [jsize] at hs
      | succ f => rfl
  | .bool b, fuel, rest, hs, _ => by
      cases fuel with
      | zero => simp [jsize] at hs
      | succ f => cases b <;> rfl
  | .num i, fuel, rest, hs, hr => by
      cases fuel with
      | zero => simp [jsize] at hs
      | succ f =>
          obtain ⟨c0, t0, he, hws, hn, htt, hff, hq, hbk, hbc, _⟩ := intChars_head i
          have harg : valChars (.num i) ++ rest = c0 :: (t0 ++ rest) := by
            simp [valChars, he]
          rw [harg, readVal_num_dispatch f c0 (t0 ++ rest) hws hn htt hff hq hbk hbc]
          have hback : c0 :: (t0 ++ rest) = intChars i ++ rest := by simp [he]
          rw [hback, readIntNum_intChars i rest hr]
  | .str s, fuel, rest, hs, _ => by
      cases fuel with
      | zero => simp [jsize] at hs
      | succ f =>
          have harg : valChars (.str s) ++ rest
              = '"' :: (s.data.flatMap escChar ++ '"' :: rest) := by
            simp [valChars, strChars]
          rw [harg]
          conv_lhs => whnf
          rw [readStr_strBody s rest _ (by
            simp only [List.length_append, List.length_cons]
            omega)]
  | .arr [], fuel, rest, hs, _ => by
      cases fuel with
      | zero => simp [jsize] at hs
      | succ f => rfl
  | .arr (e :: es), fuel, rest, hs, _ => by
      cases fuel with
      | zero => simp [jsize] at hs
      | succ f =>
          have harg : valChars (.arr (e :: es)) ++ rest
              = '[' :: (arrChars (e :: es) ++ ']' :: rest) := by
            simp [valChars]
          rw [harg, readVal_arr_dispatch f e es rest]
          rw [rtElems e es f rest (by simp only [jsize] at hs; omega)]
  | .obj [], fuel, rest, hs, _ => by
      cases fuel with
      | zero => simp [jsize] at hs
      | succ f => rfl
  | .obj ((k, v) :: ms), fuel, rest, hs, _ => by
      cases fuel with
      | zero => simp [jsize] at hs
      | succ f =>
          have harg : valChars (.obj ((k, v) :: ms)) ++ rest
              = '\x7b' :: (objChars ((k, v) :: ms) ++ '\x7d' :: rest) := by
            simp [valChars]
          rw [harg, readVal_obj_dispatch f k v ms rest]
          rw [rtMembers k v ms f rest (by simp only [jsize] at hs; omega)]
  termination_by v _ _ _ _ => sizeOf v

/-- Reading a rendered non-empty element list recovers it. -/
theorem rtElems : ∀ (e : JValue) (es : List JValue) (fuel : Nat) (rest : List Char),
    lsize (e :: es) ≤ fuel →
    readElems fuel (arrChars (e :: es) ++ ']' :: rest) = some (e :: es, rest)
  | e, [], fuel, rest, hs => by
      cases fuel with
      | zero => simp [lsize] at hs
      | succ f =>
          have harg : arrChars [e] ++ ']' :: rest = valChars e ++ ']' :: rest := by
            simp [arrChars]
          rw [harg]
          simp only [readElems]
          rw [rtVal e f (']' :: rest)
            (by simp only [lsize] at hs; omega) (numDelim_cons _ (by decide))]
          rfl
  | e, x :: xs, fuel, rest, hs => by
      cases fuel with
      | zero => simp [lsize] at hs
      | succ f =>
          have harg : arrChars (e :: x :: xs) ++ ']' :: rest
              = valChars e ++ (',' :: (arrChars (x :: xs) ++ ']' :: rest)) := by
            show (valChars e ++ ',' :: arrChars (x :: xs)) ++ ']' :: rest = _
            simp
          rw [harg]
          simp only [readElems]
          rw [rtVal e f (',' :: (arrChars (x :: xs) ++ ']' :: rest))
            (by simp only [lsize] at hs; omega) (numDelim_cons _ (by decide))]
          conv_lhs => whnf
          rw [rtElems x xs f rest (by simp only [lsize] at hs ⊢; omega)]
  termination_by e es _ _ _ => sizeOf e + sizeOf es

/-- Reading a rendered non-empty member list recovers it. -/
theorem rtMembers : ∀ (k : String) (v : JValue) (ms : List (String × JValue))
    (fuel : Nat) (rest : List Char),
    msize ((k, v) :: ms) ≤ fuel →
    readMembers fuel (objChars ((k, v) :: ms) ++ '\x7d' :: rest) = some ((k, v) :: ms, rest)
  | k, v, [], fuel, rest, hs => by
      cases fuel with
      | zero => simp [msize] at hs
      | succ f =>
          have harg : objChars [(k, v)] ++ '\x7d' :: rest
              = '"' :: (k.data.flatMap escChar
                  ++ '"' :: (':' :: (valChars v ++ '\x7d' :: rest))) := by
            simp [objChars, strChars]
          rw [harg]
          conv_lhs => whnf
          rw [readStr_strBody k (':' :: (valChars v ++ '\x7d' :: rest)) _ (by
            simp only [List.length_append, List.length_cons]
            omega)]
          conv_lhs => whnf
          rw [rtVal v f ('\x7d' :: rest)
            (by simp only [msize] at hs; omega) (numDelim_cons _ (by decide))]
          rfl
  | k, v, (k2, v2) :: ms, fuel, rest, hs => by
      cases fuel with
      | zero => simp [msize] at hs
      | succ f =>
          have harg : objChars ((k, v) :: (k2, v2) :: ms) ++ '\x7d' :: rest
              = '"' :: (k.data.flatMap escChar
                  ++ '"' :: (':' :: (valChars v
                      ++ ',' :: (objChars ((k2, v2) :: ms) ++ '\x7d' :: rest)))) := by
            show (strChars k ++ ':' :: valChars v ++ ',' :: objChars ((k2, v2) :: ms))
                ++ '\x7d' :: rest = _
            simp [strChars]
          rw [harg]
          conv_lhs => whnf
          rw [readStr_strBody k
            (':' :: (valChars v ++ ',' :: (objChars ((k2, v2) :: ms) ++ '\x7d' :: rest))) _ (by
              simp only [List.length_append, List.length_cons]
              omega)]
          conv_lhs => whnf
          rw [rtVal v f (',' :: (objChars ((k2, v2) :: ms) ++ '\x7d' :: rest))
            (by simp only [msize] at hs; omega) (numDelim_cons _ (by decide))]
          conv_lhs => whnf
          rw [rtMembers k2 v2 ms f rest (by simp only [msize] at hs ⊢; omega)]
  termination_by _ v ms _ _ _ => sizeOf v + sizeOf ms

end

end JSON

namespace JSON

mutual

/-- `jsize` is within twice the rendered length. -/
theorem jsize_le : ∀ v : JValue, jsize v ≤ 2 * (valChars v).length
  | .null => by simp [jsize, valChars]
  | .bool b => by cases b <;> simp [jsize, valChars]
  | .num i => by
      obtain ⟨c, t, he, _, _, _, _, _, _, _, _⟩ := intChars_head i
      simp only [jsize, valChars, he, List.length_cons]
      omega
  | .str s => by
      simp only [jsize, valChars, strChars, List.length_cons, List.length_append]
      omega
  | .arr es => by
      have h := lsize_le es
      simp only [jsize, valChars, List.length_cons, List.length_append]
      omega
  | .obj ms => by
      have h := msize_le ms
      simp only [jsize, valChars, List.length_cons, List.length_append]
      omega

/-- `lsize` is within twice the rendered element-list length, plus two. -/
theorem lsize_le : ∀ es : List JValue, lsize es ≤ 2 + 2 * (arrChars es).length
  | [] => by simp [lsize, arrChars]
  | [e] => by
      have h := jsize_le e
      simp only [lsize, arrChars]
      omega
  | e :: x :: xs => by
      have h1 := jsize_le e
      have h2 := lsize_le (x :: xs)
      simp only [lsize] at h2
      simp only [lsize, arrChars, List.length_append, List.length_cons]
      omega

/-- `msize` is within twice the rendered member-list length, plus two. -/
theorem msize_le : ∀ ms : List (String × JValue), msize ms ≤ 2 + 2 * (objChars ms).length
  | [] => by simp [msize, objChars]
  | [(k, v)] => by
      have h := jsize_le v
      simp only [msize, objChars, List.length_append, List.length_cons]
      omega
  | (k, v) :: (k2, v2) :: ms => by
      have h1 := jsize_le v
      have h2 := msize_le ((k2, v2) :: ms)
      simp only [msize] at h2
      simp only [msize, objChars, List.length_append, List.length_cons]
      omega

end

/-- **Codec round trip**: `JSON.parse` inverts `JSON.stringify` on every
value of the modelled grammar. -/
theorem parse_stringify (v : JValue) : parse (stringify v) = some v := by
  have hb := jsize_le v
  have h := rtVal v (2 * (valChars v).length + 2) [] (by omega) numDelim_nil
  rw [List.append_nil] at h
  show (match readVal (2 * (valChars v).length + 2) (valChars v) with
    | some (v', r) => if dropWs r = [] then some v' else none
    | none => none) = some v
  rw [h]
  rfl

end JSON

/-! ### JS string helpers used by the file backends -/

/-- The whitespace set of JS `String.prototype.trim`. -/
def isJsWs (c : Char) : Bool :=
  c = ' ' || c = '\x09' || c = '\x0a' || c = '\x0b' || c = '\x0c' || c = '\x0d'
    || c = Char.ofNat 0xa0 || c = Char.ofNat 0x1680
    || (0x2000 ≤ c.toNat && c.toNat ≤ 0x200a)
    || c = Char.ofNat 0x2028 || c = Char.ofNat 0x2029 || c = Char.ofNat 0x202f
    || c = Char.ofNat 0x205f || c = Char.ofNat 0x3000 || c = Char.ofNat 0xfeff

/-- `line.trim()` on character lists. -/
def jsTrim (l : List Char) : List Char :=
  ((l.dropWhile isJsWs).reverse.dropWhile isJsWs).reverse

/-- The character class of the split regex `[\r\n]`. -/
def isNL (c : Char) : Bool := c = '\x0d' || c = '\x0a'

/-- `source.split(/[\r\n]+/)`: split on maximal CR/LF runs, keeping
empty edge pieces exactly as the JS regex split does (fuel-indexed for
structural recursion; `splitNL` supplies enough fuel). -/
def splitNLAux : Nat → List Char → List Char → List (List Char)
  | 0, cur, _ => [cur.reverse]
  | _ + 1, cur, [] => [cur.reverse]
  | fuel + 1, cur, c :: cs =>
      if isNL c then cur.reverse :: splitNLAux fuel [] (cs.dropWhile isNL)
      else splitNLAux fuel (c :: cur) cs

def splitNL (l : List Char) : List (List Char) := splitNLAux (l.length + 1) [] l

/-- Split at the first `'='` (JS `indexOf('=')` + the two slices);
`none` when the character does not occur (`includes` false). -/
def splitFirstEq : List Char → Option (List Char × List Char)
  | [] => none
  | c :: cs =>
      if c = '=' then some ([], cs)
      else
        match splitFirstEq cs with
        | some (a, b) => some (c :: a, b)
        | none => none

/-! ### The INI codec (`src/unnamed/part_000:51-94`) -/

namespace INI

/-- One line of `INI.parse`: a trimmed `[name]` line opens (or reopens)
a section; otherwise, with a truthy current section, a line containing
`'='` assigns `trim(before) = parsed(after)` into it, falling back to
the raw string when `JSON.parse` fails; anything else is ignored. -/
def parseLine (st : Option String × Store JValue) (line : List Char) :
    Option String × Store JValue :=
  let trimmed := jsTrim line
  if trimmed.head? = some '[' ∧ trimmed.getLast? = some ']' then
    let name : String := ⟨(trimmed.drop 1).dropLast⟩
    (some name, if objHas st.2 name then st.2 else st.2 ++ [(name, [])])
  else
    match st.1 with
    | some sec =>
        if sec ≠ "" ∧ '=' ∈ trimmed then
          match splitFirstEq trimmed with
          | some (a, b) =>
              let key : String := ⟨jsTrim a⟩
              let raw : String := ⟨jsTrim b⟩
              let v : JValue :=
                match JSON.parse raw with
                | some j => j
                | none => .str raw
              -- `result[currentSection][key] = v`; the section always
              -- exists here, created by the header branch
              (st.1, objSet st.2 sec (objSet ((objGet st.2 sec).getD []) key v))
          | none => st
        else st
    | none => st

/-- Fold `parseLine` from the start state (`currentSection = null`,
empty result object). -/
def parseLines (lines : List (List Char)) : Option String × Store JValue :=
  lines.foldl parseLine (none, [])

/-- `INI.parse`. -/
def parse (source : String) : Store JValue :=
  (parseLines (splitNL source.data)).2

/-- The characters one section block of `INI.stringify` emits:
`[name]`, one `key = <JSON>` line per entry, then a blank line. -/
def sectionChars (sec : String) (tbl : Dict JValue) : List Char :=
  '[' :: sec.data ++ ']' :: '\x0a' ::
    (tbl.flatMap (fun kv => kv.1.data ++ ' ' :: '=' :: ' ' :: (JSON.valChars kv.2 ++ ['\x0a']))
      ++ ['\x0a'])

/-- `INI.stringify`. -/
def stringify (data : Store JValue) : String :=
  ⟨data.flatMap (fun e => sectionChars e.1 e.2)⟩

end INI

/-! ### TxtDBCache (`src/packages/cache-txtdb/src/index.ts`) -/

namespace TxtDBCache

/-- `this.table(name)[key] = value`: the table springs into existence
via `??= Object.create(null)` before the assignment. -/
def tableSet {α : Type} (store : Store α) (name key : String) (v : α) : Store α :=
  objSet store name (objSet ((objGet store name).getD []) key v)

/-- `get`: `return this.table(name)[key]` — `undefined` for a missing
key.  (The `??=` creation of an empty table inside `table()` is
observationally empty and the model drops it.) -/
def get {α : Type} (store : Store α) (name key : String) : Option α :=
  objGet ((objGet store name).getD []) key

/-- Store effect of `set` (`maxAge` is accepted and ignored); the
debounced `write()` is modelled by `stepMut` below. -/
def set {α : Type} (store : Store α) (name key : String) (v : α) : Store α :=
  tableSet store name key v

/-- Store effect of `delete`: `delete this.table(name)[key]`. -/
def del {α : Type} (store : Store α) (name key : String) : Store α :=
  objSet store name (objDel ((objGet store name).getD []) key)

/-- Store effect of `clear`: `delete this.store[name]`. -/
def clear {α : Type} (store : Store α) (name : String) : Store α :=
  objDel store name

/-- `entries(table)`: `Object.entries(this.table(table))`. -/
def entries {α : Type} (store : Store α) (name : String) : List (String × α) :=
  (objGet store name).getD []

/-- One record of the log: `JSON.stringify([tableName, key, value])`. -/
def recordChars (t k : String) (v : JValue) : List Char :=
  JSON.valChars (.arr [.str t, .str k, v])

/-- `flush` file content: one line per currently-live key, a full
rewrite of the file. -/
def flushContent (store : Store JValue) : String :=
  ⟨store.flatMap (fun e => e.2.flatMap (fun kv => recordChars e.1 kv.1 kv.2 ++ ['\x0a']))⟩

/-- Decode one record line: a JSON 3-element-or-more array
`[table, key, value, ...]` with string table and key.  (JS array
destructuring of other decodable shapes — short arrays, non-string
members, string char-iteration — is not modelled; the flush writer
never produces them, and the load theorems restrict to writer-shaped
or undecodable lines.) -/
def decodeRecord (line : String) : Option (String × String × JValue) :=
  match JSON.parse line with
  | some (.arr (.str t :: .str k :: v :: _)) => some (t, k, v)
  | _ => none

/-- One line of `init`: `if (!line) continue`; on decode success
`this.table(table)[key] = value`; on failure a warning is counted and
the remaining lines still load. -/
def loadLine (st : Store JValue × Nat) (line : List Char) : Store JValue × Nat :=
  if line = [] then st
  else
    match decodeRecord ⟨line⟩ with
    | some (t, k, v) => (tableSet st.1 t k v, st.2)
    | none => (st.1, st.2 + 1)

/-- Apply the record lines in file order, starting from the empty
store, returning the store and the warning count. -/
def loadLines (lines : List (List Char)) : Store JValue × Nat :=
  lines.foldl loadLine ([], 0)

/-- `init` applied to the file text it read. -/
def load (data : String) : Store JValue × Nat :=
  loadLines (splitNL data.data)

end TxtDBCache

/-! ### IniDBCache (`src/unnamed/part_000`): same store discipline,
INI codec -/

namespace IniDBCache

/-- `get`: `const table = this.table(name); return table[key]`. -/
def get {α : Type} (store : Store α) (name key : String) : Option α :=
  objGet ((objGet store name).getD []) key

/-- Store effect of `set` (`maxAge` unsupported and ignored). -/
def set {α : Type} (store : Store α) (name key : String) (v : α) : Store α :=
  objSet store name (objSet ((objGet store name).getD []) key v)

/-- Store effect of `delete`. -/
def del {α : Type} (store : Store α) (name key : String) : Store α :=
  objSet store name (objDel ((objGet store name).getD []) key)

/-- Store effect of `clear`: `delete this.store[name]`. -/
def clear {α : Type} (store : Store α) (name : String) : Store α :=
  objDel store name

/-- `init` store effect: `this.store = INI.parse(data)`. -/
def load (data : String) : Store JValue := INI.parse data

/-- `flush` file content: `INI.stringify(this.store)`. -/
def flushContent (store : Store JValue) : String := INI.stringify store

end IniDBCache

/-! ### The debounced flush discipline shared by both file backends -/

/-- A mutation that routes through `write()`. -/
inductive CacheMut (α : Type) : Type where
  | clearT : String → CacheMut α
  | setT : String → String → α → CacheMut α
  | delT : String → String → CacheMut α

/-- Store effect of one mutation. -/
def applyMut {α : Type} (store : Store α) : CacheMut α → Store α
  | .clearT t => TxtDBCache.clear store t
  | .setT t k v => TxtDBCache.set store t k v
  | .delT t k => TxtDBCache.del store t k

/-- Debounce state: the in-memory store, the `_debounce` timer as its
absolute expiry instant, and the file contents written so far. -/
structure FileCacheState (α : Type) : Type where
  store : Store α
  deadline : Option Nat
  flushed : List String

/-- `flush()`: null out the handle, serialize the entire current store,
overwrite the file (recorded in `flushed`). -/
def flushNow {α : Type} (serialize : Store α → String) (s : FileCacheState α) :
    FileCacheState α :=
  { s with deadline := none, flushed := s.flushed ++ [serialize s.store] }

/-- One mutation arriving at instant `now`: a pending timer that has
already expired fires first; then the store mutates and `write()`
cancels any outstanding timer (`clearTimeout`) and schedules a flush
for `now + 1000` (`setTimeout(..., 1000)`). -/
def stepMut {α : Type} (serialize : Store α → String) (s : FileCacheState α)
    (now : Nat) (m : CacheMut α) : FileCacheState α :=
  let s1 := match s.deadline with
    | some d => if d ≤ now then flushNow serialize s else s
    | none => s
  { store := applyMut s1.store m, deadline := some (now + 1000), flushed := s1.flushed }

/-- Run a timed mutation sequence. -/
def runMuts {α : Type} (serialize : Store α → String) (s0 : FileCacheState α)
    (evs : List (Nat × CacheMut α)) : FileCacheState α :=
  evs.foldl (fun s e => stepMut serialize s e.1 e.2) s0

/-- The pending timer expires with no further mutation: `flush()` runs. -/
def expire {α : Type} (serialize : Store α → String) (s : FileCacheState α) :
    FileCacheState α :=
  if s.deadline.isSome then flushNow serialize s else s

/-- The `dispose` hook: `if (this._debounce) { clearTimeout(...); return
this.flush(); }` — flush immediately iff a flush is pending. -/
def dispose {α : Type} (serialize : Store α → String) (s : FileCacheState α) :
    FileCacheState α :=
  if s.deadline.isSome then flushNow serialize s else s

/-- Every event arrives no earlier than the previous one and strictly
before the flush instant the previous mutation scheduled. -/
def withinWindow {α : Type} : Nat → List (Nat × CacheMut α) → Prop
  | _, [] => True
  | prev, (t, _) :: evs => prev ≤ t ∧ t < prev + 1000 ∧ withinWindow t evs

/-! ### The shared `Cache.forEach` -/

/-- `Promise.all` over already-launched unit tasks: rejects with the
first rejection, resolves when all resolve. -/
def promiseAll {ε : Type} : List (Except ε Unit) → Except ε Unit
  | [] => .ok ()
  | t :: ts =>
      match t with
      | .error e => .error e
      | .ok _ => promiseAll ts

/-- `Cache.forEach`: push `callback(value, key)` for every entry of the
traversal without awaiting — every task is launched — then await
`Promise.all(tasks)`.  Returns the launched tasks and the aggregate. -/
def cacheForEach {α ε : Type} (entries : List (String × α))
    (callback : α → String → Except ε Unit) : List (Except ε Unit) × Except ε Unit :=
  let tasks := entries.map (fun kv => callback kv.2 kv.1)
  (tasks, promiseAll tasks)

/-! ### LevelDBCache (`src/packages/cache-leveldb/src/index.ts`) -/

/-- An engine-reported error: the not-found code or any other code. -/
inductive LevelErr : Type where
  | notFound : LevelErr
  | other : String → LevelErr
deriving DecidableEq, Repr

/-- The embedded engine's content: entries addressed by sublevel
(table) name and key — `db.sublevel(name)` realizes per-table
namespace isolation. -/
abbrev LevelDB (α : Type) : Type := List ((String × String) × α)

def lvlLookup {α : Type} (db : LevelDB α) (t k : String) : Option α :=
  match db with
  | [] => none
  | (a, v) :: rest => if a = (t, k) then some v else lvlLookup rest t k

/-- The engine `get` on a sublevel: throws `LEVEL_NOT_FOUND` for a
missing key. -/
def sublevelGet {α : Type} (db : LevelDB α) (t k : String) : Except LevelErr α :=
  match lvlLookup db t k with
  | some v => .ok v
  | none => .error .notFound

namespace LevelDBCache

/-- The `try`/`catch` of `get`: `LEVEL_NOT_FOUND` becomes `undefined`,
any other engine error is rethrown to the caller. -/
def catchNotFound {α : Type} (r : Except LevelErr α) : Except LevelErr (Option α) :=
  match r with
  | .ok v => .ok (some v)
  | .error e => if e = .notFound then .ok none else .error e

/-- `get`: the engine lookup through the not-found translation. -/
def get {α : Type} (db : LevelDB α) (t k : String) : Except LevelErr (Option α) :=
  catchNotFound (sublevelGet db t k)

/-- `set`: `put` into the table's sublevel (`maxAge` ignored). -/
def set {α : Type} (db : LevelDB α) (t k : String) (v : α) : LevelDB α :=
  match db with
  | [] => [((t, k), v)]
  | (a, w) :: rest => if a = (t, k) then (a, v) :: rest else (a, w) :: set rest t k v

/-- `delete`: `del` from the sublevel (no error when absent). -/
def del {α : Type} (db : LevelDB α) (t k : String) : LevelDB α :=
  match db with
  | [] => []
  | (a, w) :: rest => if a = (t, k) then rest else (a, w) :: del rest t k

/-- `clear`: `getTable(name).clear()` removes every entry of that
sublevel and nothing else. -/
def clear {α : Type} (db : LevelDB α) (t : String) : LevelDB α :=
  db.filter (fun e => e.1.1 ≠ t)

end LevelDBCache

/-! ### Well-formedness: JS objects never hold a duplicate property -/

/-- Key uniqueness of a `Dict`, inherent to real JS objects. -/
abbrev dictWF {α : Type} (o : Dict α) : Prop := (o.map Prod.fst).Nodup

/-- Key uniqueness at both levels of a `Store`. -/
abbrev storeWF {α : Type} (s : Store α) : Prop :=
  dictWF s ∧ ∀ e ∈ s, dictWF e.2

/-- Key uniqueness of the engine content. -/
abbrev lvlWF {α : Type} (db : LevelDB α) : Prop := (db.map Prod.fst).Nodup

theorem objGet_mem {α : Type} {o : Dict α} {k : String} {v : α}
    (he : objGet o k = some v) : (k, v) ∈ o := by
  induction o with
  | nil => simp [objGet] at he
  | cons e rest ih =>
      obtain ⟨k0, v0⟩ := e
      by_cases h0 : k0 = k
      · subst h0
        rw [objGet, if_pos rfl] at he
        injection he with he
        subst he
        exact List.mem_cons_self _ _
      · rw [objGet, if_neg h0] at he
        exact List.mem_cons_of_mem _ (ih he)

theorem table_nodup_of_storeWF {α : Type} {s : Store α} (hwf : storeWF s) (T : String) :
    dictWF ((objGet s T).getD []) := by
  match he : objGet s T with
  | none => simp [dictWF]
  | some tbl => simpa using hwf.2 (T, tbl) (objGet_mem he)

theorem lvlLookup_set_self {α : Type} (db : LevelDB α) (t k : String) (v : α) :
    lvlLookup (LevelDBCache.set db t k v) t k = some v := by
  induction db with
  | nil => simp [lvlLookup, LevelDBCache.set]
  | cons e rest ih =>
      obtain ⟨a, w⟩ := e
      by_cases h : a = (t, k) <;> simp [lvlLookup, LevelDBCache.set, h, ih]

theorem lvlLookup_set_other {α : Type} (db : LevelDB α) (t k t' k' : String) (v : α)
    (h : (t', k') ≠ (t, k)) :
    lvlLookup (LevelDBCache.set db t k v) t' k' = lvlLookup db t' k' := by
  have h' : ((t, k) : String × String) ≠ (t', k') := Ne.symm h
  induction db with
  | nil => simp only [LevelDBCache.set, lvlLookup, if_neg h']
  | cons e rest ih =>
      obtain ⟨a, w⟩ := e
      by_cases h0 : a = (t, k)
      · subst h0
        simp only [LevelDBCache.set, if_pos rfl, lvlLookup, if_neg h']
      · simp only [LevelDBCache.set, if_neg h0, lvlLookup]
        by_cases h1 : a = (t', k') <;> simp [h1, ih]

theorem lvlLookup_del_self {α : Type} (db : LevelDB α) (t k : String)
    (hnd : lvlWF db) : lvlLookup (LevelDBCache.del db t k) t k = none := by
  induction db with
  | nil => simp [lvlLookup, LevelDBCache.del]
  | cons e rest ih =>
      obtain ⟨a, w⟩ := e
      simp only [lvlWF, List.map_cons, List.nodup_cons] at hnd
      by_cases h0 : a = (t, k)
      · subst h0
        simp only [LevelDBCache.del, if_pos rfl]
        clear ih
        induction rest with
        | nil => simp [lvlLookup]
        | cons e' rest' ih' =>
            obtain ⟨a1, w1⟩ := e'
            simp only [List.map_cons, List.mem_cons, List.nodup_cons] at hnd
            have ha1 : a1 ≠ (t, k) := fun h => hnd.1 (Or.inl h.symm)
            simp only [lvlLookup, if_neg ha1]
            exact ih' ⟨fun h => hnd.1 (Or.inr h), hnd.2.2⟩
      · simp only [LevelDBCache.del, if_neg h0, lvlLookup, if_neg h0]
        exact ih hnd.2

theorem lvlLookup_clear_other {α : Type} (db : LevelDB α) (A t k : String)
    (h : t ≠ A) : lvlLookup (LevelDBCache.clear db A) t k = lvlLookup db t k := by
  induction db with
  | nil => rfl
  | cons e rest ih =>
      obtain ⟨⟨ta, ka⟩, w⟩ := e
      rw [LevelDBCache.clear] at ih ⊢
      rw [List.filter_cons]
      by_cases h0 : ta = A
      · have hne : ((ta, ka) : String × String) ≠ (t, k) := by
          intro he
          injection he with h1 _
          exact h (h1 ▸ h0)
        rw [if_neg (by simp [h0])]
        rw [show lvlLookup (((ta, ka), w) :: rest) t k = lvlLookup rest t k from by
          rw [lvlLookup, if_neg hne]]
        exact ih
      · rw [if_pos (by simp [h0])]
        by_cases h1 : ((ta, ka) : String × String) = (t, k)
        · rw [lvlLookup, if_pos h1, lvlLookup, if_pos h1]
        · rw [lvlLookup, if_neg h1, lvlLookup, if_neg h1]
          exact ih

/-! ### C1 -/

/-- C1: on every backend, for every table `T`, key `K`, value `V`:
`set(T,K,V)` then `get(T,K)` returns `V`, and `delete(T,K)` then
`get(T,K)` returns the absent sentinel (given the inherent key
uniqueness of the underlying objects for the delete direction). -/
theorem cache_set_get_delete_consistency {α : Type} :
    (∀ (s : Store α) (T K : String) (V : α),
        TxtDBCache.get (TxtDBCache.set s T K V) T K = some V
      ∧ (storeWF s → TxtDBCache.get (TxtDBCache.del s T K) T K = none))
  ∧ (∀ (s : Store α) (T K : String) (V : α),
        IniDBCache.get (IniDBCache.set s T K V) T K = some V
      ∧ (storeWF s → IniDBCache.get (IniDBCache.del s T K) T K = none))
  ∧ (∀ (db : LevelDB α) (T K : String) (V : α),
        LevelDBCache.get (LevelDBCache.set db T K V) T K = .ok (some V)
      ∧ (lvlWF db → LevelDBCache.get (LevelDBCache.del db T K) T K = .ok none)) := by
  refine ⟨fun s T K V => ⟨?_, ?_⟩, fun s T K V => ⟨?_, ?_⟩, fun db T K V => ⟨?_, ?_⟩⟩
  · simp [TxtDBCache.get, TxtDBCache.set, TxtDBCache.tableSet, objGet_set_self]
  · intro hwf
    simp [TxtDBCache.get, TxtDBCache.del, objGet_set_self,
      objGet_del_self _ _ (table_nodup_of_storeWF hwf T)]
  · simp [IniDBCache.get, IniDBCache.set, objGet_set_self]
  · intro hwf
    simp [IniDBCache.get, IniDBCache.del, objGet_set_self,
      objGet_del_self _ _ (table_nodup_of_storeWF hwf T)]
  · simp [LevelDBCache.get, sublevelGet, LevelDBCache.catchNotFound, lvlLookup_set_self]
  · intro hwf
    simp [LevelDBCache.get, sublevelGet, LevelDBCache.catchNotFound,
      lvlLookup_del_self db T K hwf]

/-- C1 witness: the theorem applied at a concrete store and database. -/
theorem cache_set_get_delete_consistency_witness :
    TxtDBCache.get (TxtDBCache.set ([("a", [("x", 1)])] : Store Nat) "t" "k" 7) "t" "k" = some 7
    ∧ TxtDBCache.get (TxtDBCache.del ([("t", [("k", 7)])] : Store Nat) "t" "k") "t" "k" = none
    ∧ LevelDBCache.get (LevelDBCache.del ([(("t", "k"), 5)] : LevelDB Nat) "t" "k") "t" "k"
        = .ok none :=
  ⟨(cache_set_get_delete_consistency.1 [("a", [("x", 1)])] "t" "k" 7).1,
   (cache_set_get_delete_consistency.1 [("t", [("k", 7)])] "t" "k" 7).2 (by decide),
   (cache_set_get_delete_consistency.2.2 [(("t", "k"), 5)] "t" "k" 5).2 (by decide)⟩

/-! ### C2 -/

/-- C2: a missing (table, key) yields the absent sentinel on every
backend without raising: the file backends' `get` is a total lookup
returning `undefined`; the embedded backend catches the engine's
`LEVEL_NOT_FOUND` and returns `undefined` (`Except.ok none`), while
any other engine-reported error is rethrown to the caller. -/
theorem missing_key_absent_never_raises {α : Type} :
    (∀ (s : Store α) (T K : String),
        (∀ tbl, objGet s T = some tbl → objGet tbl K = none) →
        TxtDBCache.get s T K = none ∧ IniDBCache.get s T K = none)
  ∧ (∀ (db : LevelDB α) (T K : String),
        lvlLookup db T K = none → LevelDBCache.get db T K = .ok none)
  ∧ (∀ e : LevelErr, e ≠ .notFound →
        LevelDBCache.catchNotFound (α := α) (.error e) = .error e) := by
  refine ⟨fun s T K h => ?_, fun db T K h => ?_, fun e he => ?_⟩
  · match he : objGet s T with
    | none => simp [TxtDBCache.get, IniDBCache.get, he, objGet]
    | some tbl => simp [TxtDBCache.get, IniDBCache.get, he, h tbl he]
  · simp [LevelDBCache.get, sublevelGet, h, LevelDBCache.catchNotFound]
  · simp [LevelDBCache.catchNotFound, he]

/-- C2 witness: a missing key on a populated file store, a missing key
on the embedded backend, and a non-not-found engine error passing
through the translation untouched. -/
theorem missing_key_absent_never_raises_witness :
    TxtDBCache.get ([("t", [("k", 1)])] : Store Nat) "t" "missing" = none
    ∧ LevelDBCache.get ([] : LevelDB Nat) "anytable" "missing" = .ok none
    ∧ LevelDBCache.catchNotFound (α := Nat) (.error (.other "LEVEL_IO_ERROR"))
        = .error (.other "LEVEL_IO_ERROR") :=
  ⟨(missing_key_absent_never_raises.1 [("t", [("k", 1)])] "t" "missing" (by
      intro tbl htbl
      simp [objGet] at htbl
      subst htbl
      decide)).1,
   missing_key_absent_never_raises.2.1 [] "anytable" "missing" rfl,
   missing_key_absent_never_raises.2.2 (.other "LEVEL_IO_ERROR") (by decide)⟩

/-! ### C6 -/

/-- C6: `clear(A)` leaves every entry of a distinct table `B` in
place on every backend; in the embedded backend the same key in two
distinct tables addresses two independent entries. -/
theorem table_isolation {α : Type} :
    (∀ (s : Store α) (A B k : String), A ≠ B →
        TxtDBCache.get (TxtDBCache.clear s A) B k = TxtDBCache.get s B k
      ∧ IniDBCache.get (IniDBCache.clear s A) B k = IniDBCache.get s B k)
  ∧ (∀ (db : LevelDB α) (A B k : String), A ≠ B →
        LevelDBCache.get (LevelDBCache.clear db A) B k = LevelDBCache.get db B k)
  ∧ (∀ (db : LevelDB α) (A B k : String) (v1 v2 : α), A ≠ B →
        LevelDBCache.get (LevelDBCache.set (LevelDBCache.set db A k v1) B k v2) A k
          = .ok (some v1)
      ∧ LevelDBCache.get (LevelDBCache.set (LevelDBCache.set db A k v1) B k v2) B k
          = .ok (some v2)) := by
  refine ⟨fun s A B k h => ⟨?_, ?_⟩, fun db A B k h => ?_, fun db A B k v1 v2 h => ⟨?_, ?_⟩⟩
  · simp [TxtDBCache.get, TxtDBCache.clear, objGet_del_other s A B (Ne.symm h)]
  · simp [IniDBCache.get, IniDBCache.clear, objGet_del_other s A B (Ne.symm h)]
  · simp [LevelDBCache.get, sublevelGet, lvlLookup_clear_other db A B k (Ne.symm h)]
  · have hAB : ((A, k) : String × String) ≠ (B, k) := by
      intro he
      injection he with h1 _
      exact h h1
    simp [LevelDBCache.get, sublevelGet, LevelDBCache.catchNotFound,
      lvlLookup_set_other _ B k A k v2 hAB, lvlLookup_set_self]
  · simp [LevelDBCache.get, sublevelGet, LevelDBCache.catchNotFound, lvlLookup_set_self]

/-- C6 witness: clearing one table and populating the same key in two
tables, on concrete stores. -/
theorem table_isolation_witness :
    TxtDBCache.get (TxtDBCache.clear ([("a", [("k", 1)]), ("b", [("k", 2)])] : Store Nat) "a")
        "b" "k" = some 2
    ∧ LevelDBCache.get
        (LevelDBCache.set (LevelDBCache.set ([] : LevelDB Nat) "a" "k" 1) "b" "k" 2) "a" "k"
        = .ok (some 1)
    ∧ LevelDBCache.get
        (LevelDBCache.set (LevelDBCache.set ([] : LevelDB Nat) "a" "k" 1) "b" "k" 2) "b" "k"
        = .ok (some 2) :=
  ⟨(table_isolation.1 [("a", [("k", 1)]), ("b", [("k", 2)])] "a" "b" "k" (by decide)).1,
   (table_isolation.2.2 [] "a" "b" "k" 1 2 (by decide)).1,
   (table_isolation.2.2 [] "a" "b" "k" 1 2 (by decide)).2⟩

/-! ### C10 -/

/-- The full frame behaviour of a file-backend `set` on a
prototype-free store: the written key reads back, other keys of the
table and other tables read unchanged. -/
theorem fileBackend_set_frame {α : Type} (s : Store α) (T K : String) (V : α) :
    objGet ((objGet (objSet s T (objSet ((objGet s T).getD []) K V)) T).getD []) K = some V
  ∧ (∀ k, k ≠ K →
      objGet ((objGet (objSet s T (objSet ((objGet s T).getD []) K V)) T).getD []) k
        = objGet ((objGet s T).getD []) k)
  ∧ (∀ T' k, T' ≠ T →
      objGet ((objGet (objSet s T (objSet ((objGet s T).getD []) K V)) T').getD []) k
        = objGet ((objGet s T').getD []) k) := by
  refine ⟨?_, fun k hk => ?_, fun T' k hT => ?_⟩
  · simp [objGet_set_self]
  · simp [objGet_set_self, objGet_set_other _ _ _ _ hk]
  · simp [objGet_set_other _ _ _ _ hT]

/-- C10: in the file backends the store and its tables are
prototype-free (`Object.create(null)`), so `"__proto__"` and
`"constructor"` behave as ordinary keys: each stores and reads back
its value, and no other key or table is affected. -/
theorem proto_keys_are_ordinary {α : Type} (s : Store α) (T : String) (V : α) :
    (TxtDBCache.get (TxtDBCache.set s T "__proto__" V) T "__proto__" = some V
      ∧ (∀ k, k ≠ "__proto__" →
          TxtDBCache.get (TxtDBCache.set s T "__proto__" V) T k = TxtDBCache.get s T k)
      ∧ (∀ T' k, T' ≠ T →
          TxtDBCache.get (TxtDBCache.set s T "__proto__" V) T' k = TxtDBCache.get s T' k))
  ∧ (TxtDBCache.get (TxtDBCache.set s T "constructor" V) T "constructor" = some V
      ∧ (∀ k, k ≠ "constructor" →
          TxtDBCache.get (TxtDBCache.set s T "constructor" V) T k = TxtDBCache.get s T k)
      ∧ (∀ T' k, T' ≠ T →
          TxtDBCache.get (TxtDBCache.set s T "constructor" V) T' k = TxtDBCache.get s T' k))
  ∧ (IniDBCache.get (IniDBCache.set s T "__proto__" V) T "__proto__" = some V
      ∧ (∀ k, k ≠ "__proto__" →
          IniDBCache.get (IniDBCache.set s T "__proto__" V) T k = IniDBCache.get s T k)
      ∧ (∀ T' k, T' ≠ T →
          IniDBCache.get (IniDBCache.set s T "__proto__" V) T' k = IniDBCache.get s T' k))
  ∧ (IniDBCache.get (IniDBCache.set s T "constructor" V) T "constructor" = some V
      ∧ (∀ k, k ≠ "constructor" →
          IniDBCache.get (IniDBCache.set s T "constructor" V) T k = IniDBCache.get s T k)
      ∧ (∀ T' k, T' ≠ T →
          IniDBCache.get (IniDBCache.set s T "constructor" V) T' k = IniDBCache.get s T' k)) :=
  ⟨fileBackend_set_frame s T "__proto__" V,
   fileBackend_set_frame s T "constructor" V,
   fileBackend_set_frame s T "__proto__" V,
   fileBackend_set_frame s T "constructor" V⟩

/-- C10 witness: writing `"__proto__"` on a concrete store stores an
ordinary entry and touches nothing else. -/
theorem proto_keys_are_ordinary_witness :
    TxtDBCache.get (TxtDBCache.set ([("t", [("x", 3)])] : Store Nat) "t" "__proto__" 9)
        "t" "__proto__" = some 9
    ∧ TxtDBCache.get (TxtDBCache.set ([("t", [("x", 3)])] : Store Nat) "t" "__proto__" 9)
        "t" "x" = TxtDBCache.get ([("t", [("x", 3)])] : Store Nat) "t" "x"
    ∧ IniDBCache.get (IniDBCache.set ([("t", [("x", 3)])] : Store Nat) "t" "constructor" 9)
        "u" "x" = IniDBCache.get ([("t", [("x", 3)])] : Store Nat) "u" "x" :=
  ⟨(proto_keys_are_ordinary [("t", [("x", 3)])] "t" 9).1.1,
   (proto_keys_are_ordinary [("t", [("x", 3)])] "t" 9).1.2.1 "x" (by decide),
   (proto_keys_are_ordinary [("t", [("x", 3)])] "t" 9).2.2.2.2.2 "u" "x" (by decide)⟩

/-! ### C4 -/

/-- C4: at shutdown of a file backend, a pending debounce timer is
canceled and its flush runs before shutdown completes — the store as
of dispose time is serialized and appended to the file writes; with no
pending timer, dispose writes nothing. -/
theorem dispose_flushes_iff_pending {α : Type} (serialize : Store α → String)
    (s : FileCacheState α) :
    (s.deadline.isSome = true →
        dispose serialize s
          = { store := s.store, deadline := none,
              flushed := s.flushed ++ [serialize s.store] })
  ∧ (s.deadline = none → dispose serialize s = s) := by
  constructor
  · intro h
    simp [dispose, h, flushNow]
  · intro h
    simp [dispose, h]

/-- C4 witness: dispose with and without a pending flush on a concrete
state. -/
theorem dispose_flushes_iff_pending_witness :
    dispose TxtDBCache.flushContent
        (⟨[("t", [("k", JValue.num 1)])], some 1500, []⟩ : FileCacheState JValue)
      = ⟨[("t", [("k", JValue.num 1)])], none, [TxtDBCache.flushContent [("t", [("k", JValue.num 1)])]]⟩
    ∧ dispose TxtDBCache.flushContent
        (⟨[("t", [("k", JValue.num 1)])], none, []⟩ : FileCacheState JValue)
      = ⟨[("t", [("k", JValue.num 1)])], none, []⟩ :=
  ⟨(dispose_flushes_iff_pending TxtDBCache.flushContent _).1 rfl,
   (dispose_flushes_iff_pending TxtDBCache.flushContent _).2 rfl⟩

/-! ### C3 -/

/-- While every mutation arrives within the window of the previous
one, the pending flush never fires: the store accumulates the
mutations, nothing is written, and the deadline tracks the last
arrival. -/
theorem runMuts_within {α : Type} (serialize : Store α → String) :
    ∀ (evs : List (Nat × CacheMut α)) (s : FileCacheState α) (prev : Nat),
      s.deadline = some (prev + 1000) → withinWindow prev evs →
      ∃ last, runMuts serialize s evs
        = { store := evs.foldl (fun st e => applyMut st e.2) s.store,
            deadline := some (last + 1000), flushed := s.flushed } := by
  intro evs
  induction evs with
  | nil =>
      intro s prev hd _
      refine ⟨prev, ?_⟩
      cases s with
      | mk st dl fl =>
          simp only at hd
          simp [runMuts, hd]
  | cons e evs ih =>
      obtain ⟨t, m⟩ := e
      intro s prev hd hw
      obtain ⟨hle, hlt, hw'⟩ := hw
      have hnotle : ¬(prev + 1000 ≤ t) := by omega
      have hstep : stepMut serialize s t m
          = { store := applyMut s.store m, deadline := some (t + 1000),
              flushed := s.flushed } := by
        simp [stepMut, hd, hnotle]
      have hfold : runMuts serialize s ((t, m) :: evs)
          = runMuts serialize (stepMut serialize s t m) evs := rfl
      rw [hfold, hstep]
      obtain ⟨last, hrun⟩ := ih ⟨applyMut s.store m, some (t + 1000), s.flushed⟩ t rfl hw'
      exact ⟨last, by rw [hrun]; simp⟩

/-- C3: starting idle, `N ≥ 1` mutations each arriving within 1000 ms
of the previous one produce no flush while they arrive and exactly one
flush when the last timer expires, whose serialized snapshot is the
store after all `N` mutations. -/
theorem debounce_coalesces_mutations {α : Type} (serialize : Store α → String)
    (store0 : Store α) (t0 : Nat) (m0 : CacheMut α) (evs : List (Nat × CacheMut α))
    (hw : withinWindow t0 evs) :
    (runMuts serialize ⟨store0, none, []⟩ ((t0, m0) :: evs)).flushed = []
  ∧ (expire serialize (runMuts serialize ⟨store0, none, []⟩ ((t0, m0) :: evs))).flushed
      = [serialize (((t0, m0) :: evs).foldl (fun st e => applyMut st e.2) store0)] := by
  obtain ⟨last, hrun⟩ := runMuts_within serialize evs
    ⟨applyMut store0 m0, some (t0 + 1000), []⟩ t0 rfl hw
  have hrun' : runMuts serialize ⟨store0, none, []⟩ ((t0, m0) :: evs)
      = { store := evs.foldl (fun st e => applyMut st e.2) (applyMut store0 m0),
          deadline := some (last + 1000), flushed := [] } := by
    have hfold : runMuts serialize ⟨store0, none, []⟩ ((t0, m0) :: evs)
        = runMuts serialize (stepMut serialize ⟨store0, none, []⟩ t0 m0) evs := rfl
    rw [hfold]
    exact hrun
  rw [hrun']
  constructor
  · rfl
  · simp [expire, flushNow, List.foldl_cons]

/-- C3 witness: two `set` calls to the same key 500 ms apart produce a
single flush whose record log holds the second value. -/
theorem debounce_coalesces_mutations_witness :
    (expire TxtDBCache.flushContent
        (runMuts TxtDBCache.flushContent ⟨[], none, []⟩
          [(0, CacheMut.setT "t" "k" (JValue.num 1)),
           (500, CacheMut.setT "t" "k" (JValue.num 2))])).flushed
      = [TxtDBCache.flushContent [("t", [("k", JValue.num 2)])]] :=
  (debounce_coalesces_mutations TxtDBCache.flushContent [] 0
    (CacheMut.setT "t" "k" (JValue.num 1))
    [(500, CacheMut.setT "t" "k" (JValue.num 2))]
    ⟨by omega, by omega, trivial⟩).2

/-! ### C9 -/

theorem promiseAll_ok_iff {ε : Type} (ts : List (Except ε Unit)) :
    promiseAll ts = .ok () ↔ ∀ t ∈ ts, t = .ok () := by
  induction ts with
  | nil => simp [promiseAll]
  | cons t ts ih =>
      match t with
      | .error e => simp [promiseAll]
      | .ok () => simp [promiseAll, ih]

theorem forEach_error_aux {α ε : Type} (callback : α → String → Except ε Unit) :
    ∀ (entries : List (String × α)) (e : ε),
      promiseAll (entries.map fun kv => callback kv.2 kv.1) = .error e
        ↔ ∃ l1 kv l2, entries = l1 ++ kv :: l2 ∧ callback kv.2 kv.1 = .error e
            ∧ ∀ kv' ∈ l1, callback kv'.2 kv'.1 = .ok () := by
  intro entries e
  induction entries with
  | nil => simp [promiseAll]
  | cons kv0 rest ih =>
      rw [List.map_cons]
      match hcb : callback kv0.2 kv0.1 with
      | .error e' =>
          show Except.error e' = .error e ↔ _
          constructor
          · intro h
            injection h with h
            exact ⟨[], kv0, rest, rfl, by rw [hcb, h], by simp⟩
          · rintro ⟨l1, kv, l2, hsplit, hkv, hok⟩
            match l1, hsplit with
            | [], hsplit =>
                have hkv0 : kv = kv0 := (List.cons.inj hsplit).1.symm
                rw [hkv0, hcb] at hkv
                exact hkv
            | x :: l1', hsplit =>
                have hx : callback x.2 x.1 = .ok () := hok x (by simp)
                have hkv0 : kv0 = x := (List.cons.inj hsplit).1
                rw [← hkv0, hcb] at hx
                exact absurd hx (by simp)
      | .ok u =>
          cases u
          show promiseAll (rest.map fun kv => callback kv.2 kv.1) = .error e ↔ _
          rw [ih]
          constructor
          · rintro ⟨l1, kv, l2, hsplit, hkv, hok⟩
            refine ⟨kv0 :: l1, kv, l2, by simp [hsplit], hkv, ?_⟩
            intro kv' hkv'
            rcases List.mem_cons.mp hkv' with h | h
            · rw [h, hcb]
            · exact hok kv' h
          · rintro ⟨l1, kv, l2, hsplit, hkv, hok⟩
            match l1, hsplit with
            | [], hsplit =>
                have hkv0 : kv = kv0 := (List.cons.inj hsplit).1.symm
                rw [hkv0, hcb] at hkv
                exact absurd hkv (by simp)
            | x :: l1', hsplit =>
                exact ⟨l1', kv, l2, (List.cons.inj hsplit).2, hkv,
                  fun y hy => hok y (List.mem_cons_of_mem _ hy)⟩

/-- C9: `forEach` launches `callback(value, key)` once per entry of
the traversal, in order and regardless of failures (launched
invocations are never canceled), and the aggregate is `Promise.all` of
the tasks: it succeeds iff every callback succeeds, and fails exactly
at the first failing callback, with its error. -/
theorem forEach_launches_all_and_fails_fast {α ε : Type}
    (entries : List (String × α)) (callback : α → String → Except ε Unit) :
    (cacheForEach entries callback).1 = entries.map (fun kv => callback kv.2 kv.1)
  ∧ ((cacheForEach entries callback).2 = .ok ()
      ↔ ∀ kv ∈ entries, callback kv.2 kv.1 = .ok ())
  ∧ (∀ e : ε, (cacheForEach entries callback).2 = .error e
      ↔ ∃ l1 kv l2, entries = l1 ++ kv :: l2 ∧ callback kv.2 kv.1 = .error e
          ∧ ∀ kv' ∈ l1, callback kv'.2 kv'.1 = .ok ()) := by
  refine ⟨rfl, ?_, fun e => ?_⟩
  · show promiseAll (entries.map fun kv => callback kv.2 kv.1) = .ok () ↔ _
    rw [promiseAll_ok_iff]
    constructor
    · intro h kv hkv
      exact h _ (List.mem_map_of_mem _ hkv)
    · intro h t ht
      obtain ⟨kv, hkv, rfl⟩ := List.mem_map.mp ht
      exact h kv hkv
  · exact forEach_error_aux callback entries e

/-! ### C8 -/

theorem loadLine_warn_shift (lines : List (List Char)) :
    ∀ (s : Store JValue) (w : Nat),
      List.foldl TxtDBCache.loadLine (s, w + 1) lines
        = ((List.foldl TxtDBCache.loadLine (s, w) lines).1,
           (List.foldl TxtDBCache.loadLine (s, w) lines).2 + 1) := by
  induction lines with
  | nil => intro s w; rfl
  | cons l ls ih =>
      intro s w
      rw [List.foldl_cons, List.foldl_cons]
      by_cases hl : l = []
      · rw [show TxtDBCache.loadLine (s, w + 1) l = (s, w + 1) from by
            simp [TxtDBCache.loadLine, hl],
          show TxtDBCache.loadLine (s, w) l = (s, w) from by
            simp [TxtDBCache.loadLine, hl]]
        exact ih s w
      · match hd : TxtDBCache.decodeRecord ⟨l⟩ with
        | some (t, k, v) =>
            rw [show TxtDBCache.loadLine (s, w + 1) l = (TxtDBCache.tableSet s t k v, w + 1) from by
                simp [TxtDBCache.loadLine, hl, hd],
              show TxtDBCache.loadLine (s, w) l = (TxtDBCache.tableSet s t k v, w) from by
                simp [TxtDBCache.loadLine, hl, hd]]
            exact ih _ w
        | none =>
            rw [show TxtDBCache.loadLine (s, w + 1) l = (s, w + 1 + 1) from by
                simp [TxtDBCache.loadLine, hl, hd],
              show TxtDBCache.loadLine (s, w) l = (s, w + 1) from by
                simp [TxtDBCache.loadLine, hl, hd]]
            exact ih s (w + 1)

/-- C8: loading applies records to the store in file order, so a key
repeated across lines ends with the last line's value; a line that
fails to decode is skipped with one warning and does not stop the
remaining lines from loading. -/
theorem recordlog_load_order_and_skip :
    (∀ (lines : List (List Char)) (t k : String) (v : JValue),
        TxtDBCache.get (TxtDBCache.loadLines (lines ++ [TxtDBCache.recordChars t k v])).1 t k
          = some v)
  ∧ (∀ (pre post : List (List Char)) (bad : List Char), bad ≠ [] →
        TxtDBCache.decodeRecord ⟨bad⟩ = none →
        (TxtDBCache.loadLines (pre ++ bad :: post)).1 = (TxtDBCache.loadLines (pre ++ post)).1
      ∧ (TxtDBCache.loadLines (pre ++ bad :: post)).2
          = (TxtDBCache.loadLines (pre ++ post)).2 + 1) := by
  constructor
  · intro lines t k v
    have hdec : TxtDBCache.decodeRecord ⟨TxtDBCache.recordChars t k v⟩ = some (t, k, v) := by
      rw [TxtDBCache.decodeRecord,
        show (⟨TxtDBCache.recordChars t k v⟩ : String)
          = JSON.stringify (.arr [.str t, .str k, v]) from rfl,
        JSON.parse_stringify]
    have hne : TxtDBCache.recordChars t k v ≠ [] := by
      rw [TxtDBCache.recordChars]
      simp [JSON.valChars]
    rw [TxtDBCache.loadLines, List.foldl_append]
    rcases hfold : List.foldl TxtDBCache.loadLine ([], 0) lines with ⟨s0, w0⟩
    simp [TxtDBCache.loadLine, hne, hdec, TxtDBCache.get, TxtDBCache.tableSet,
      objGet_set_self]
  · intro pre post bad hne hdec
    rw [TxtDBCache.loadLines, TxtDBCache.loadLines, List.foldl_append, List.foldl_append,
      List.foldl_cons]
    rcases hfold : List.foldl TxtDBCache.loadLine ([], 0) pre with ⟨s0, w0⟩
    rw [show TxtDBCache.loadLine (s0, w0) bad = (s0, w0 + 1) from by
      simp [TxtDBCache.loadLine, hne, hdec]]
    rw [loadLine_warn_shift post s0 w0]
    exact ⟨rfl, rfl⟩

/-- C8 witness: a key written twice loads to the second value; an
undecodable middle line is skipped with one warning while the later
record still loads. -/
theorem recordlog_load_order_and_skip_witness :
    TxtDBCache.get (TxtDBCache.loadLines
        [TxtDBCache.recordChars "t" "k" (JValue.num 1),
         TxtDBCache.recordChars "t" "k" (JValue.num 2)]).1 "t" "k" = some (JValue.num 2)
    ∧ (TxtDBCache.loadLines
        [TxtDBCache.recordChars "t" "k" (JValue.num 1), ("not json").data,
         TxtDBCache.recordChars "u" "j" (JValue.num 3)]).1
      = (TxtDBCache.loadLines
          [TxtDBCache.recordChars "t" "k" (JValue.num 1),
           TxtDBCache.recordChars "u" "j" (JValue.num 3)]).1
    ∧ (TxtDBCache.loadLines
        [TxtDBCache.recordChars "t" "k" (JValue.num 1), ("not json").data,
         TxtDBCache.recordChars "u" "j" (JValue.num 3)]).2
      = (TxtDBCache.loadLines
          [TxtDBCache.recordChars "t" "k" (JValue.num 1),
           TxtDBCache.recordChars "u" "j" (JValue.num 3)]).2 + 1 :=
  ⟨recordlog_load_order_and_skip.1 [TxtDBCache.recordChars "t" "k" (JValue.num 1)]
      "t" "k" (JValue.num 2),
   (recordlog_load_order_and_skip.2 [TxtDBCache.recordChars "t" "k" (JValue.num 1)]
      [TxtDBCache.recordChars "u" "j" (JValue.num 3)] ("not json").data
      (by decide) (by rfl)).1,
   (recordlog_load_order_and_skip.2 [TxtDBCache.recordChars "t" "k" (JValue.num 1)]
      [TxtDBCache.recordChars "u" "j" (JValue.num 3)] ("not json").data
      (by decide) (by rfl)).2⟩

/-! ### Characters of the serialized forms: no CR/LF, no surrounding
whitespace.  These facts let the file codecs' line structure survive
`split(/[\r\n]+/)` and `trim()`. -/

/-- CR and LF belong to the JS trim whitespace set. -/
theorem isNL_eq_false_of_isJsWs {c : Char} (h : isJsWs c = false) : isNL c = false := by
  cases hnl : isNL c
  · rfl
  · simp only [isNL, Bool.or_eq_true, decide_eq_true_eq] at hnl
    rcases hnl with rfl | rfl <;> exact absurd h (by decide)

/-- Digits are not JS trim whitespace. -/
theorem digit_not_jsws {c : Char} (h : JSON.isDigitCh c = true) : isJsWs c = false := by
  simp only [JSON.isDigitCh, Bool.and_eq_true, decide_eq_true_eq] at h
  obtain ⟨h1, h2⟩ := h
  have hc := Char.ofNat_toNat c
  have hd : c.toNat = 48 ∨ c.toNat = 49 ∨ c.toNat = 50 ∨ c.toNat = 51 ∨ c.toNat = 52
      ∨ c.toNat = 53 ∨ c.toNat = 54 ∨ c.toNat = 55 ∨ c.toNat = 56 ∨ c.toNat = 57 := by
    omega
  rcases hd with hd | hd | hd | hd | hd | hd | hd | hd | hd | hd <;>
    (rw [hd] at hc; rw [← hc]; decide)

/-- A serialized integer starts with a non-whitespace character. -/
theorem intChars_head_ws (i : Int) :
    ∃ c t, JSON.intChars i = c :: t ∧ isJsWs c = false := by
  by_cases hi : i < 0
  · exact ⟨'-', JSON.decChars i.natAbs, by simp [JSON.intChars, hi], by decide⟩
  · obtain ⟨c0, t0, he⟩ := List.exists_cons_of_ne_nil (JSON.decChars_ne_nil i.natAbs)
    have hc0 : JSON.isDigitCh c0 = true :=
      JSON.decChars_digits _ c0 (he ▸ List.mem_cons_self _ _)
    exact ⟨c0, t0, by simp [JSON.intChars, hi, he], digit_not_jsws hc0⟩

/-- A serialized value starts with a non-whitespace character. -/
theorem valChars_head_ws (v : JValue) :
    ∃ c t, JSON.valChars v = c :: t ∧ isJsWs c = false := by
  cases v with
  | null => exact ⟨'n', _, rfl, by decide⟩
  | bool b =>
      cases b with
      | true => exact ⟨'t', _, rfl, by decide⟩
      | false => exact ⟨'f', _, rfl, by decide⟩
  | num i =>
      obtain ⟨c, t, he, hws⟩ := intChars_head_ws i
      exact ⟨c, t, by simp [JSON.valChars, he], hws⟩
  | str s => exact ⟨'"', _, rfl, by decide⟩
  | arr es => exact ⟨'[', _, rfl, by decide⟩
  | obj ms => exact ⟨'\x7b', _, rfl, by decide⟩

/-- A serialized value ends with a non-whitespace character. -/
theorem valChars_last_ws (v : JValue) :
    ∀ c, (JSON.valChars v).getLast? = some c → isJsWs c = false := by
  cases v with
  | null =>
      intro c h
      rw [show (JSON.valChars .null).getLast? = some 'l' from rfl] at h
      injection h with h; subst h; decide
  | bool b =>
      cases b with
      | true =>
          intro c h
          rw [show (JSON.valChars (.bool true)).getLast? = some 'e' from rfl] at h
          injection h with h; subst h; decide
      | false =>
          intro c h
          rw [show (JSON.valChars (.bool false)).getLast? = some 'e' from rfl] at h
          injection h with h; subst h; decide
  | num i =>
      intro c h
      rcases List.eq_nil_or_concat (JSON.decChars i.natAbs) with hnil | ⟨l', a, hconc⟩
      · exact absurd hnil (JSON.decChars_ne_nil _)
      · rw [List.concat_eq_append] at hconc
        have hlast : (JSON.valChars (.num i)).getLast? = some a := by
          show (JSON.intChars i).getLast? = some a
          rw [JSON.intChars, hconc, ← List.append_assoc, List.getLast?_concat]
        rw [hlast] at h
        injection h with h; subst h
        exact digit_not_jsws (JSON.decChars_digits _ a (by rw [hconc]; simp))
  | str s =>
      intro c h
      have hlast : (JSON.valChars (.str s)).getLast? = some '"' := by
        show ('"' :: (s.data.flatMap JSON.escChar ++ ['"'])).getLast? = some '"'
        rw [← List.cons_append, List.getLast?_concat]
      rw [hlast] at h
      injection h with h; subst h; decide
  | arr es =>
      intro c h
      have hlast : (JSON.valChars (.arr es)).getLast? = some ']' := by
        show ('[' :: (JSON.arrChars es ++ [']'])).getLast? = some ']'
        rw [← List.cons_append, List.getLast?_concat]
      rw [hlast] at h
      injection h with h; subst h; decide
  | obj ms =>
      intro c h
      have hlast : (JSON.valChars (.obj ms)).getLast? = some '\x7d' := by
        show ('\x7b' :: (JSON.objChars ms ++ ['\x7d'])).getLast? = some '\x7d'
        rw [← List.cons_append, List.getLast?_concat]
      rw [hlast] at h
      injection h with h; subst h; decide

/-- `hexChar` never produces CR/LF. -/
theorem hexChar_not_nl (n : Nat) : isNL (JSON.hexChar n) = false := by
  have h : n % 16 = 0 ∨ n % 16 = 1 ∨ n % 16 = 2 ∨ n % 16 = 3 ∨ n % 16 = 4 ∨ n % 16 = 5
      ∨ n % 16 = 6 ∨ n % 16 = 7 ∨ n % 16 = 8 ∨ n % 16 = 9 ∨ n % 16 = 10 ∨ n % 16 = 11
      ∨ n % 16 = 12 ∨ n % 16 = 13 ∨ n % 16 = 14 ∨ n % 16 = 15 := by omega
  rcases h with h | h | h | h | h | h | h | h | h | h | h | h | h | h | h | h <;>
    (rw [JSON.hexChar, h]; decide)

/-- String escaping never emits a raw CR/LF: the control characters
below 32 (CR and LF among them) leave as escapes. -/
theorem escChar_no_nl (c : Char) : ∀ d ∈ JSON.escChar c, isNL d = false := by
  intro d hd
  rw [JSON.escChar] at hd
  by_cases h1 : c = '"'
  · rw [if_pos h1] at hd; simp at hd; rcases hd with rfl | rfl <;> decide
  rw [if_neg h1] at hd
  by_cases h2 : c = '\\'
  · rw [if_pos h2] at hd; simp at hd; rw [hd]; decide
  rw [if_neg h2] at hd
  by_cases h3 : c = '\x08'
  · rw [if_pos h3] at hd; simp at hd; rcases hd with rfl | rfl <;> decide
  rw [if_neg h3] at hd
  by_cases h4 : c = '\x09'
  · rw [if_pos h4] at hd; simp at hd; rcases hd with rfl | rfl <;> decide
  rw [if_neg h4] at hd
  by_cases h5 : c = '\x0a'
  · rw [if_pos h5] at hd; simp at hd; rcases hd with rfl | rfl <;> decide
  rw [if_neg h5] at hd
  by_cases h6 : c = '\x0c'
  · rw [if_pos h6] at hd; simp at hd; rcases hd with rfl | rfl <;> decide
  rw [if_neg h6] at hd
  by_cases h7 : c = '\x0d'
  · rw [if_pos h7] at hd; simp at hd; rcases hd with rfl | rfl <;> decide
  rw [if_neg h7] at hd
  by_cases h8 : c.toNat < 32
  · rw [if_pos h8] at hd
    simp at hd
    rcases hd with rfl | rfl | rfl | rfl | rfl <;>
      first
        | decide
        | exact hexChar_not_nl _
  · rw [if_neg h8] at hd
    simp at hd
    rw [hd]
    cases hnl : isNL c
    · rfl
    · exfalso
      simp only [isNL, Bool.or_eq_true, decide_eq_true_eq] at hnl
      rcases hnl with h | h <;> (rw [h] at h8; exact h8 (by decide))

/-- A serialized string contains no CR/LF. -/
theorem strChars_no_nl (s : String) : ∀ c ∈ JSON.strChars s, isNL c = false := by
  intro c hc
  rw [JSON.strChars] at hc
  rcases List.mem_cons.mp hc with rfl | hc
  · decide
  rcases List.mem_append.mp hc with hc | hc
  · obtain ⟨a, ha, hca⟩ := List.mem_flatMap.mp hc
    exact escChar_no_nl a c hca
  · simp at hc; subst hc; decide

/-- A serialized integer contains no CR/LF. -/
theorem intChars_no_nl (i : Int) : ∀ c ∈ JSON.intChars i, isNL c = false := by
  intro c hc
  rw [JSON.intChars] at hc
  rcases List.mem_append.mp hc with hc | hc
  · by_cases hi : i < 0
    · rw [if_pos hi] at hc; simp at hc; subst hc; decide
    · rw [if_neg hi] at hc; simp at hc
  · exact isNL_eq_false_of_isJsWs (digit_not_jsws (JSON.decChars_digits _ c hc))

mutual

/-- A serialized value contains no CR/LF anywhere: both file formats
may put it on a single line. -/
theorem valChars_no_nl : ∀ (v : JValue), ∀ c ∈ JSON.valChars v, isNL c = false
  | .null => by
      intro c hc
      rw [show JSON.valChars .null = ['n', 'u', 'l', 'l'] from rfl] at hc
      simp only [List.mem_cons, List.not_mem_nil, or_false] at hc
      rcases hc with rfl | rfl | rfl | rfl <;> decide
  | .bool true => by
      intro c hc
      rw [show JSON.valChars (.bool true) = ['t', 'r', 'u', 'e'] from rfl] at hc
      simp only [List.mem_cons, List.not_mem_nil, or_false] at hc
      rcases hc with rfl | rfl | rfl | rfl <;> decide
  | .bool false => by
      intro c hc
      rw [show JSON.valChars (.bool false) = ['f', 'a', 'l', 's', 'e'] from rfl] at hc
      simp only [List.mem_cons, List.not_mem_nil, or_false] at hc
      rcases hc with rfl | rfl | rfl | rfl | rfl <;> decide
  | .num i => intChars_no_nl i
  | .str s => strChars_no_nl s
  | .arr es => by
      intro c hc
      rw [show JSON.valChars (.arr es) = '[' :: (JSON.arrChars es ++ [']']) from rfl] at hc
      simp only [List.mem_cons, List.mem_append, List.mem_singleton, List.not_mem_nil,
        or_false, or_assoc] at hc
      rcases hc with rfl | hc | rfl
      · decide
      · exact arrChars_no_nl es c hc
      · decide
  | .obj ms => by
      intro c hc
      rw [show JSON.valChars (.obj ms) = '\x7b' :: (JSON.objChars ms ++ ['\x7d'])
        from rfl] at hc
      simp only [List.mem_cons, List.mem_append, List.mem_singleton, List.not_mem_nil,
        or_false, or_assoc] at hc
      rcases hc with rfl | hc | rfl
      · decide
      · exact objChars_no_nl ms c hc
      · decide

/-- Array element lists contain no CR/LF. -/
theorem arrChars_no_nl : ∀ (es : List JValue), ∀ c ∈ JSON.arrChars es, isNL c = false
  | [] => by intro c hc; simp [JSON.arrChars] at hc
  | [e] => by
      intro c hc
      exact valChars_no_nl e c hc
  | e :: e2 :: es => by
      intro c hc
      rw [show JSON.arrChars (e :: e2 :: es)
          = JSON.valChars e ++ ',' :: JSON.arrChars (e2 :: es) from rfl] at hc
      simp only [List.mem_append, List.mem_cons] at hc
      rcases hc with hc | rfl | hc
      · exact valChars_no_nl e c hc
      · decide
      · exact arrChars_no_nl (e2 :: es) c hc

/-- Object member lists contain no CR/LF. -/
theorem objChars_no_nl :
    ∀ (ms : List (String × JValue)), ∀ c ∈ JSON.objChars ms, isNL c = false
  | [] => by intro c hc; simp [JSON.objChars] at hc
  | [(k, v)] => by
      intro c hc
      rw [show JSON.objChars [(k, v)] = JSON.strChars k ++ ':' :: JSON.valChars v
        from rfl] at hc
      simp only [List.mem_append, List.mem_cons] at hc
      rcases hc with hc | rfl | hc
      · exact strChars_no_nl k c hc
      · decide
      · exact valChars_no_nl v c hc
  | (k, v) :: m2 :: ms => by
      intro c hc
      rw [show JSON.objChars ((k, v) :: m2 :: ms)
          = JSON.strChars k ++ (':' :: JSON.valChars v) ++ ',' :: JSON.objChars (m2 :: ms)
        from rfl] at hc
      simp only [List.mem_append, List.mem_cons, or_assoc] at hc
      rcases hc with hc | rfl | hc | rfl | hc
      · exact strChars_no_nl k c hc
      · decide
      · exact valChars_no_nl v c hc
      · decide
      · exact objChars_no_nl (m2 :: ms) c hc

end

/-! ### `trim` and `split(/[\r\n]+/)` on well-shaped lines -/

/-- `trim` of a list with non-whitespace first and last characters is
the identity. -/
theorem jsTrim_eq_self (l : List Char)
    (h1 : ∀ c, l.head? = some c → isJsWs c = false)
    (h2 : ∀ c, l.getLast? = some c → isJsWs c = false) :
    jsTrim l = l := by
  match l with
  | [] => rfl
  | c :: rest =>
    have hc := h1 c rfl
    have hdrop1 : (c :: rest).dropWhile isJsWs = c :: rest := by
      simp [List.dropWhile_cons, hc]
    rw [jsTrim, hdrop1]
    cases hrev : (c :: rest).reverse with
    | nil => simp at hrev
    | cons d ds =>
        have hd : (c :: rest).getLast? = some d := by
          rw [← List.head?_reverse, hrev, List.head?_cons]
        have hdws := h2 d hd
        rw [List.dropWhile_cons, if_neg (by simp [hdws])]
        rw [← hrev, List.reverse_reverse]

/-- A single trailing space is trimmed away. -/
theorem jsTrim_append_space (l : List Char)
    (h1 : ∀ c, l.head? = some c → isJsWs c = false)
    (h2 : ∀ c, l.getLast? = some c → isJsWs c = false) :
    jsTrim (l ++ [' ']) = l := by
  match l with
  | [] => rfl
  | c :: rest =>
    have hc := h1 c rfl
    have hdrop1 : ((c :: rest) ++ [' ']).dropWhile isJsWs = (c :: rest) ++ [' '] := by
      simp only [List.cons_append, List.dropWhile_cons]
      rw [if_neg (by simp [hc])]
    rw [jsTrim, hdrop1]
    rw [show (c :: rest) ++ [' '] = c :: (rest ++ [' ']) from rfl]
    rw [show (c :: (rest ++ [' '])).reverse = ' ' :: (c :: rest).reverse by
      simp]
    rw [List.dropWhile_cons, if_pos (by decide)]
    cases hrev : (c :: rest).reverse with
    | nil => simp at hrev
    | cons d ds =>
        have hd : (c :: rest).getLast? = some d := by
          rw [← List.head?_reverse, hrev, List.head?_cons]
        have hdws := h2 d hd
        rw [List.dropWhile_cons, if_neg (by simp [hdws])]
        rw [← hrev, List.reverse_reverse]

/-- A single leading space is trimmed away. -/
theorem jsTrim_space_cons (l : List Char)
    (h1 : ∀ c, l.head? = some c → isJsWs c = false)
    (h2 : ∀ c, l.getLast? = some c → isJsWs c = false) :
    jsTrim (' ' :: l) = l := by
  have hstep : jsTrim (' ' :: l) = jsTrim l := by
    rw [jsTrim, jsTrim, List.dropWhile_cons, if_pos (by decide)]
  rw [hstep]
  exact jsTrim_eq_self l h1 h2

/-- Splitting at the first `'='` of `a ++ '=' :: b` when `a` is
`'='`-free. -/
theorem splitFirstEq_append (a b : List Char) (ha : ∀ c ∈ a, c ≠ '=') :
    splitFirstEq (a ++ '=' :: b) = some (a, b) := by
  induction a with
  | nil => simp [splitFirstEq]
  | cons c cs ih =>
      have hc : c ≠ '=' := ha c (by simp)
      rw [List.cons_append, splitFirstEq, if_neg hc,
        ih (fun x hx => ha x (by simp [hx]))]

/-- `splitNLAux` ignores the fuel once it exceeds the input length. -/
theorem splitNLAux_congr : ∀ (f1 : Nat) (f2 : Nat) (cur l : List Char),
    l.length < f1 → l.length < f2 →
    splitNLAux f1 cur l = splitNLAux f2 cur l := by
  intro f1
  induction f1 with
  | zero => intro f2 cur l h1 _; omega
  | succ g ih =>
      intro f2 cur l h1 h2
      match f2, l with
      | 0, l => omega
      | h + 1, [] => rfl
      | h + 1, c :: cs =>
          simp only [List.length_cons] at h1 h2
          rw [splitNLAux, splitNLAux]
          by_cases hc : isNL c
          · rw [if_pos hc, if_pos hc]
            have hlen : (cs.dropWhile isNL).length ≤ cs.length :=
              (List.dropWhile_sublist isNL).length_le
            rw [ih h [] (cs.dropWhile isNL) (by omega) (by omega)]
          · rw [if_neg hc, if_neg hc]
            exact ih h (c :: cur) cs (by omega) (by omega)

/-- Stepping `splitNLAux` over one newline-free line and its
terminator. -/
theorem splitNLAux_append : ∀ (l : List Char) (fuel : Nat) (cur rest : List Char),
    (∀ c ∈ l, isNL c = false) →
    l.length + rest.length + 1 < fuel →
    splitNLAux fuel cur (l ++ '\x0a' :: rest)
      = (cur.reverse ++ l) :: splitNL (rest.dropWhile isNL) := by
  intro l
  induction l with
  | nil =>
      intro fuel cur rest _ hf
      match fuel with
      | f + 1 =>
          have hlen : (rest.dropWhile isNL).length ≤ rest.length :=
            (List.dropWhile_sublist isNL).length_le
          rw [List.nil_append, splitNLAux, if_pos (by decide)]
          rw [splitNLAux_congr f ((rest.dropWhile isNL).length + 1) [] (rest.dropWhile isNL)
            (by simp only [List.length_nil] at hf; omega)
            (by omega)]
          simp [splitNL]
  | cons c cs ih =>
      intro fuel cur rest hl hf
      match fuel with
      | f + 1 =>
          have hc : isNL c = false := hl c (by simp)
          rw [List.cons_append, splitNLAux, if_neg (by simp [hc])]
          rw [ih f (c :: cur) rest (fun x hx => hl x (by simp [hx]))
            (by simp only [List.length_cons] at hf; omega)]
          simp

/-- `split(/[\r\n]+/)` emits a newline-free line before its CR/LF run. -/
theorem splitNL_append_line (l rest : List Char)
    (hl : ∀ c ∈ l, isNL c = false) :
    splitNL (l ++ '\x0a' :: rest) = l :: splitNL (rest.dropWhile isNL) := by
  rw [splitNL, splitNLAux_append l _ [] rest hl
    (by simp only [List.length_append, List.length_cons]; omega)]
  simp

/-- Dropping a leading CR/LF run does nothing when the first character
is not CR/LF. -/
theorem dropWhile_isNL_eq_self (rest : List Char)
    (h : rest.head?.all (fun c => !isNL c) = true) :
    rest.dropWhile isNL = rest := by
  cases rest with
  | nil => rfl
  | cons c cs =>
      simp only [List.head?_cons, Option.all_some, Bool.not_eq_true'] at h
      rw [List.dropWhile_cons, if_neg (by simp [h])]

/-! ### Safe names and keys for the INI codec, and fresh-key writes -/

/-- A table name the INI codec serializes losslessly: non-empty (the
parser treats the empty section name as falsy and then drops its keys)
and free of CR/LF (a newline would break the `[name]` line). -/
def iniSafeName (t : String) : Bool :=
  !t.data.isEmpty && t.data.all (fun c => !isNL c)

/-- A key the INI codec serializes losslessly: non-empty, free of
CR/LF and of `'='`, not starting with whitespace or `'['`, not ending
with whitespace. -/
def iniSafeKey (k : String) : Bool :=
  !k.data.isEmpty && k.data.all (fun c => !isNL c && c ≠ '=')
    && k.data.head?.all (fun c => !isJsWs c && c ≠ '[')
    && k.data.getLast?.all (fun c => !isJsWs c)

/-- The characters of one serialized `key = value` INI line. -/
def kvChars (k : String) (v : JValue) : List Char :=
  k.data ++ ' ' :: '=' :: ' ' :: JSON.valChars v

/-- Writing a fresh key appends the pair at the end. -/
theorem objSet_fresh {α : Type} (o : Dict α) (k : String) (v : α)
    (h : objGet o k = none) : objSet o k v = o ++ [(k, v)] := by
  induction o with
  | nil => rfl
  | cons kv rest ih =>
      obtain ⟨k', v'⟩ := kv
      rw [objGet] at h
      by_cases hk : k' = k
      · rw [if_pos hk] at h; exact absurd h (by simp)
      · rw [if_neg hk] at h
        rw [objSet, if_neg hk, ih h, List.cons_append]

/-- Reading back the key of an appended pair. -/
theorem objGet_append_right {α : Type} (o : Dict α) (k : String) (v : α)
    (h : objGet o k = none) : objGet (o ++ [(k, v)]) k = some v := by
  induction o with
  | nil => simp [objGet]
  | cons kv rest ih =>
      obtain ⟨k', v'⟩ := kv
      rw [objGet] at h
      by_cases hk : k' = k
      · rw [if_pos hk] at h; exact absurd h (by simp)
      · rw [if_neg hk] at h
        rw [List.cons_append, objGet, if_neg hk]
        exact ih h

/-- Reading a different key is unaffected by an appended pair. -/
theorem objGet_append_singleton_ne {α : Type} (o : Dict α) (k k' : String) (v : α)
    (h : k' ≠ k) : objGet (o ++ [(k, v)]) k' = objGet o k' := by
  induction o with
  | nil =>
      have h' : k ≠ k' := Ne.symm h
      simp [objGet, h']
  | cons kv rest ih =>
      obtain ⟨k0, v0⟩ := kv
      by_cases hk : k0 = k'
      · rw [List.cons_append, objGet, if_pos hk, objGet, if_pos hk]
      · rw [List.cons_append, objGet, if_neg hk, objGet, if_neg hk]
        exact ih

/-- Overwriting the same key twice keeps only the last value. -/
theorem objSet_objSet_same {α : Type} (o : Dict α) (k : String) (v1 v2 : α) :
    objSet (objSet o k v1) k v2 = objSet o k v2 := by
  induction o with
  | nil => simp [objSet]
  | cons kv rest ih =>
      obtain ⟨k', v'⟩ := kv
      by_cases hk : k' = k
      · simp [objSet, hk]
      · simp [objSet, hk, ih]

/-- An appended pair makes its key present. -/
theorem objHas_append_singleton {α : Type} (o : Dict α) (k : String) (v : α) :
    objHas (o ++ [(k, v)]) k = true := by
  induction o with
  | nil => simp [objHas, objGet]
  | cons kv rest ih =>
      obtain ⟨k', v'⟩ := kv
      by_cases hk : k' = k
      · simp [objHas, objGet, hk]
      · rw [List.cons_append]
        simpa [objHas, objGet, hk] using ih

namespace INI

/-- A `[name]` line (re)opens the section and inserts it if absent. -/
theorem parseLine_header (st : Option String × Store JValue) (t : String) :
    parseLine st ('[' :: t.data ++ [']'])
      = (some t, if objHas st.2 t then st.2 else st.2 ++ [(t, [])]) := by
  have hlast : ('[' :: t.data ++ [']']).getLast? = some ']' :=
    List.getLast?_concat _
  have htrim : jsTrim ('[' :: t.data ++ [']']) = '[' :: t.data ++ [']'] := by
    apply jsTrim_eq_self
    · intro c h
      rw [show ('[' :: t.data ++ [']']).head? = some '[' from rfl] at h
      injection h with h
      rw [← h]
      decide
    · intro c h
      rw [hlast] at h
      injection h with h
      rw [← h]
      decide
  have hname : (('[' :: t.data ++ [']']).drop 1).dropLast = t.data := by
    rw [show ('[' :: t.data ++ [']']).drop 1 = t.data ++ [']'] from rfl]
    exact List.dropLast_concat
  simp only [parseLine, htrim]
  rw [if_pos ⟨rfl, hlast⟩, hname]

/-- The empty line changes nothing. -/
theorem parseLine_empty (st : Option String × Store JValue) :
    parseLine st [] = st := by
  obtain ⟨cur, acc⟩ := st
  cases cur with
  | none =>
      simp only [parseLine]
      rw [if_neg (by simp [jsTrim])]
  | some sec =>
      simp only [parseLine]
      rw [if_neg (by simp [jsTrim]), if_neg (by simp [jsTrim])]

/-- With no current section (before any header), a non-header line is
ignored. -/
theorem parseLine_none (acc : Store JValue) (line : List Char)
    (h : ¬((jsTrim line).head? = some '[' ∧ (jsTrim line).getLast? = some ']')) :
    parseLine (none, acc) line = (none, acc) := by
  simp only [parseLine]
  rw [if_neg h]

/-- A non-header line keeps the current section, and keeps the section
present in the result if it was. -/
theorem parseLine_keep (sec : String) (acc : Store JValue) (l : List Char)
    (hl : ¬((jsTrim l).head? = some '[' ∧ (jsTrim l).getLast? = some ']')) :
    ∃ acc', parseLine (some sec, acc) l = (some sec, acc')
      ∧ (objHas acc sec = true → objHas acc' sec = true) := by
  simp only [parseLine]
  rw [if_neg hl]
  by_cases hc : sec ≠ "" ∧ '=' ∈ jsTrim l
  · rw [if_pos hc]
    obtain hs | ⟨ab, hs⟩ := Option.eq_none_or_eq_some (splitFirstEq (jsTrim l))
    · rw [hs]
      exact ⟨acc, rfl, fun h => h⟩
    · obtain ⟨a, b⟩ := ab
      rw [hs]
      refine ⟨_, rfl, fun hh => ?_⟩
      simp [objHas, objGet_set_self]
  · rw [if_neg hc]
    exact ⟨acc, rfl, fun h => h⟩

/-- Facts packaged out of `iniSafeKey`. -/
theorem iniSafeKey_spec {k : String} (h : iniSafeKey k = true) :
    k.data ≠ [] ∧ (∀ c ∈ k.data, isNL c = false ∧ c ≠ '=')
      ∧ (∀ c, k.data.head? = some c → isJsWs c = false ∧ c ≠ '[')
      ∧ (∀ c, k.data.getLast? = some c → isJsWs c = false) := by
  rw [iniSafeKey] at h
  simp only [Bool.and_eq_true] at h
  obtain ⟨⟨⟨hne, hall⟩, hhd⟩, hlt⟩ := h
  refine ⟨?_, ?_, ?_, ?_⟩
  · intro hnil
    rw [hnil] at hne
    simp at hne
  · intro c hc
    have hx := List.all_eq_true.mp hall c hc
    simp only [Bool.and_eq_true, Bool.not_eq_true', decide_eq_true_eq] at hx
    exact hx
  · intro c hc
    rw [hc] at hhd
    simp only [Option.all_some, Bool.and_eq_true, Bool.not_eq_true',
      decide_eq_true_eq] at hhd
    exact hhd
  · intro c hc
    rw [hc] at hlt
    simp only [Option.all_some, Bool.not_eq_true'] at hlt
    exact hlt

/-- A serialized `key = value` line under a truthy current section
stores the parsed value at the key. -/
theorem parseLine_kv (sec : String) (acc : Store JValue) (k : String) (v : JValue)
    (hsec : sec ≠ "") (hk : iniSafeKey k = true) :
    parseLine (some sec, acc) (kvChars k v)
      = (some sec, objSet acc sec (objSet ((objGet acc sec).getD []) k v)) := by
  obtain ⟨hne, hall, hhd, hlt⟩ := iniSafeKey_spec hk
  obtain ⟨c0, t0, hk0⟩ := List.exists_cons_of_ne_nil hne
  obtain ⟨cv, tv, hv0, hvws⟩ := valChars_head_ws v
  have hheadline : ∀ c, (kvChars k v).head? = some c → isJsWs c = false ∧ c ≠ '[' := by
    intro c h
    rw [kvChars, hk0, List.cons_append, List.head?_cons] at h
    injection h with h
    rw [← h]
    exact hhd c0 (by rw [hk0, List.head?_cons])
  have hvlast : ∀ c, (kvChars k v).getLast? = some c → isJsWs c = false := by
    intro c h
    rcases List.eq_nil_or_concat (JSON.valChars v) with hcnil | ⟨vi, vl, hvc⟩
    · rw [hv0] at hcnil
      exact List.noConfusion hcnil
    · rw [List.concat_eq_append] at hvc
      have hll : (kvChars k v).getLast? = some vl := by
        rw [kvChars, hvc]
        rw [show k.data ++ ' ' :: '=' :: ' ' :: (vi ++ [vl])
            = (k.data ++ ' ' :: '=' :: ' ' :: vi) ++ [vl] from by simp]
        exact List.getLast?_concat _
      rw [hll] at h
      injection h with h
      rw [← h]
      exact valChars_last_ws v vl (by rw [hvc]; exact List.getLast?_concat _)
  have htrim : jsTrim (kvChars k v) = kvChars k v :=
    jsTrim_eq_self _ (fun c h => (hheadline c h).1) hvlast
  have hnothdr : ¬((kvChars k v).head? = some '['
      ∧ (kvChars k v).getLast? = some ']') := by
    rintro ⟨hh, _⟩
    exact (hheadline '[' hh).2 rfl
  have hmem : '=' ∈ kvChars k v := by
    rw [kvChars]
    simp
  have hsplit : splitFirstEq (kvChars k v)
      = some (k.data ++ [' '], ' ' :: JSON.valChars v) := by
    rw [show kvChars k v = (k.data ++ [' ']) ++ '=' :: (' ' :: JSON.valChars v) from by
      rw [kvChars]; simp]
    apply splitFirstEq_append
    intro c hc
    rcases List.mem_append.mp hc with hc | hc
    · exact (hall c hc).2
    · simp at hc; rw [hc]; decide
  have hkeytrim : jsTrim (k.data ++ [' ']) = k.data :=
    jsTrim_append_space _ (fun c h => (hhd c h).1) hlt
  have hvaltrim : jsTrim (' ' :: JSON.valChars v) = JSON.valChars v :=
    jsTrim_space_cons _
      (fun c h => by
        rw [hv0, List.head?_cons] at h
        injection h with h
        rw [← h]
        exact hvws)
      (valChars_last_ws v)
  have hparse : JSON.parse ⟨JSON.valChars v⟩ = some v := JSON.parse_stringify v
  have hred : parseLine (some sec, acc) (kvChars k v)
      = (some sec, objSet acc sec (objSet ((objGet acc sec).getD [])
          ⟨jsTrim (k.data ++ [' '])⟩
          (match JSON.parse ⟨jsTrim (' ' :: JSON.valChars v)⟩ with
            | some j => j
            | none => JValue.str ⟨jsTrim (' ' :: JSON.valChars v)⟩))) := by
    simp only [parseLine, htrim]
    rw [if_neg hnothdr, if_pos ⟨hsec, hmem⟩, hsplit]
  rw [hkeytrim, hvaltrim, hparse] at hred
  exact hred

/-- A repeated `[t]` header under current section `t` (with `t` already
present in the result) is a no-op, and the non-header lines between the
two occurrences do not disturb this: the second block continues the
first. -/
theorem foldl_header_reopen (kvs1 : List (List Char)) : ∀ (t : String) (acc : Store JValue)
    (kvs2 : List (List Char)),
    objHas acc t = true →
    (∀ l ∈ kvs1, ¬((jsTrim l).head? = some '[' ∧ (jsTrim l).getLast? = some ']')) →
    List.foldl parseLine (some t, acc) (kvs1 ++ ('[' :: t.data ++ [']']) :: kvs2)
      = List.foldl parseLine (some t, acc) (kvs1 ++ kvs2) := by
  induction kvs1 with
  | nil =>
      intro t acc kvs2 hhas _
      rw [List.nil_append, List.nil_append, List.foldl_cons, parseLine_header,
        if_pos hhas]
  | cons l ls ih =>
      intro t acc kvs2 hhas hsafe
      obtain ⟨acc', hstep, hkeep⟩ := parseLine_keep t acc l (hsafe l (by simp))
      rw [show (l :: ls) ++ ('[' :: t.data ++ [']']) :: kvs2
          = l :: (ls ++ ('[' :: t.data ++ [']']) :: kvs2) from rfl]
      rw [show (l :: ls) ++ kvs2 = l :: (ls ++ kvs2) from rfl]
      rw [List.foldl_cons, List.foldl_cons, hstep]
      exact ih t acc' kvs2 (hkeep hhas) (fun l' hl' => hsafe l' (by simp [hl']))

end INI

/-- C7: the INI parser is line-oriented and tolerant.  First: a
non-header line before any section header is ignored.  Second: writing
the same key twice in one section leaves exactly the state of writing
only the later value.  Third: a repeated section header merges the two
blocks — folding the parser over the duplicated-header line list gives
the same state as over the single merged section (and per-key
last-wins inside the merged block is the second conjunct). -/
theorem ini_parse_tolerant :
    (∀ (line : List Char) (ls : List (List Char)),
        ¬((jsTrim line).head? = some '[' ∧ (jsTrim line).getLast? = some ']') →
        INI.parseLines (line :: ls) = INI.parseLines ls)
  ∧ (∀ (sec : String) (acc : Store JValue) (k : String) (v1 v2 : JValue),
        sec ≠ "" → iniSafeKey k = true →
        INI.parseLine (INI.parseLine (some sec, acc) (kvChars k v1)) (kvChars k v2)
          = INI.parseLine (some sec, acc) (kvChars k v2))
  ∧ (∀ (st : Option String × Store JValue) (t : String) (kvs1 kvs2 : List (List Char)),
        (∀ l ∈ kvs1, ¬((jsTrim l).head? = some '[' ∧ (jsTrim l).getLast? = some ']')) →
        List.foldl INI.parseLine st
            (('[' :: t.data ++ [']']) :: (kvs1 ++ ('[' :: t.data ++ [']']) :: kvs2))
          = List.foldl INI.parseLine st (('[' :: t.data ++ [']']) :: (kvs1 ++ kvs2))) := by
  refine ⟨?_, ?_, ?_⟩
  · intro line ls h
    rw [INI.parseLines, INI.parseLines, List.foldl_cons, INI.parseLine_none [] line h]
  · intro sec acc k v1 v2 hsec hk
    rw [INI.parseLine_kv sec acc k v1 hsec hk,
      INI.parseLine_kv sec _ k v2 hsec hk,
      INI.parseLine_kv sec acc k v2 hsec hk,
      objGet_set_self, Option.getD_some, objSet_objSet_same, objSet_objSet_same]
  · intro st t kvs1 kvs2 hkvs
    rw [List.foldl_cons, List.foldl_cons, INI.parseLine_header]
    have hhas : objHas (if objHas st.2 t then st.2 else st.2 ++ [(t, [])]) t = true := by
      by_cases h : objHas st.2 t
      · rw [if_pos h]; exact h
      · rw [if_neg h]; exact objHas_append_singleton st.2 t []
    exact INI.foldl_header_reopen kvs1 t _ kvs2 hhas hkvs

/-- C7 witness: a stray `a = 1` before any header is dropped; `k`
written twice in `[s]` ends as the single later write; a duplicated
`[s]` header merges its two blocks. -/
theorem ini_parse_tolerant_witness :
    INI.parseLines [['k', ' ', '=', ' ', '1'], ['[', 's', ']']]
        = INI.parseLines [['[', 's', ']']]
  ∧ INI.parseLine (INI.parseLine (some "s", []) (kvChars "k" (.num 1)))
        (kvChars "k" (.num 2))
      = INI.parseLine (some "s", []) (kvChars "k" (.num 2))
  ∧ List.foldl INI.parseLine (none, [])
        (('[' :: "s".data ++ [']'])
          :: ([['a', ' ', '=', ' ', '1']]
            ++ ('[' :: "s".data ++ [']']) :: [['b', ' ', '=', ' ', '2']]))
      = List.foldl INI.parseLine (none, [])
          (('[' :: "s".data ++ [']'])
            :: ([['a', ' ', '=', ' ', '1']] ++ [['b', ' ', '=', ' ', '2']])) :=
  ⟨ini_parse_tolerant.1 ['k', ' ', '=', ' ', '1'] [['[', 's', ']']] (by decide),
   ini_parse_tolerant.2.1 "s" [] "k" (.num 1) (.num 2) (by decide) (by decide),
   ini_parse_tolerant.2.2 (none, []) "s" [['a', ' ', '=', ' ', '1']]
     [['b', ' ', '=', ' ', '2']] (by decide)⟩

/-- `objSet` at the key of a freshly appended pair replaces it. -/
theorem objSet_append_right {α : Type} (o : Dict α) (k : String) (v w : α)
    (h : objGet o k = none) : objSet (o ++ [(k, v)]) k w = o ++ [(k, w)] := by
  induction o with
  | nil => simp [objSet]
  | cons kv rest ih =>
      obtain ⟨k', v'⟩ := kv
      rw [objGet] at h
      by_cases hk : k' = k
      · rw [if_pos hk] at h; exact absurd h (by simp)
      · rw [if_neg hk] at h
        rw [List.cons_append, objSet, if_neg hk, ih h, List.cons_append]

/-- Facts packaged out of `iniSafeName`. -/
theorem iniSafeName_spec {t : String} (h : iniSafeName t = true) :
    t ≠ "" ∧ t.data ≠ [] ∧ ∀ c ∈ t.data, isNL c = false := by
  rw [iniSafeName] at h
  simp only [Bool.and_eq_true] at h
  obtain ⟨hne, hall⟩ := h
  have hne' : t.data ≠ [] := by
    intro hnil; rw [hnil] at hne; simp at hne
  refine ⟨?_, hne', ?_⟩
  · intro he
    rw [he] at hne'
    exact hne' rfl
  · intro c hc
    have hx := List.all_eq_true.mp hall c hc
    simp only [Bool.not_eq_true'] at hx
    exact hx

namespace INI

/-- Folding the serialized `key = value` lines of a fresh section
appends the pairs in order. -/
theorem fold_kvs (kvs : Dict JValue) : ∀ (acc : Store JValue) (t : String)
    (part : Dict JValue),
    (∀ e ∈ kvs, iniSafeKey e.1 = true) →
    (kvs.map Prod.fst).Nodup →
    t ≠ "" →
    objGet acc t = none →
    (∀ e ∈ kvs, objGet part e.1 = none) →
    List.foldl parseLine (some t, acc ++ [(t, part)])
        (kvs.map (fun kv => kvChars kv.1 kv.2))
      = (some t, acc ++ [(t, part ++ kvs)]) := by
  induction kvs with
  | nil => intro acc t part _ _ _ _ _; simp
  | cons kv kvs ih =>
      obtain ⟨k, v⟩ := kv
      intro acc t part hsafe hnd ht hacct hfresh
      simp only [List.map_cons, List.foldl_cons]
      rw [parseLine_kv t (acc ++ [(t, part)]) k v ht (hsafe (k, v) (by simp))]
      rw [objGet_append_right acc t part hacct, Option.getD_some]
      rw [objSet_fresh part k v (hfresh (k, v) (by simp))]
      rw [objSet_append_right acc t part (part ++ [(k, v)]) hacct]
      have hstep := ih acc t (part ++ [(k, v)])
        (fun e he => hsafe e (by simp [he]))
        (by rw [List.map_cons, List.nodup_cons] at hnd; exact hnd.2)
        ht hacct
        (fun e he => by
          have hek : e.1 ≠ k := by
            intro hek
            rw [List.map_cons, List.nodup_cons] at hnd
            have hm : e.1 ∈ List.map Prod.fst kvs := List.mem_map_of_mem Prod.fst he
            rw [hek] at hm
            exact hnd.1 hm
          rw [objGet_append_singleton_ne part k e.1 v hek]
          exact hfresh e (by simp [he]))
      rw [hstep]
      simp

/-- Folding the full serialized line lists of safe sections appends
them all to the accumulated result. -/
theorem fold_sections (s : Store JValue) : ∀ (cur : Option String) (acc : Store JValue),
    (∀ e ∈ s, iniSafeName e.1 = true ∧ (∀ kv ∈ e.2, iniSafeKey kv.1 = true)
      ∧ (e.2.map Prod.fst).Nodup) →
    (s.map Prod.fst).Nodup →
    (∀ e ∈ s, objGet acc e.1 = none) →
    ∃ cur', List.foldl parseLine (cur, acc)
        (s.flatMap (fun e =>
          ('[' :: e.1.data ++ [']']) :: e.2.map (fun kv => kvChars kv.1 kv.2)))
      = (cur', acc ++ s) := by
  induction s with
  | nil => intro cur acc _ _ _; exact ⟨cur, by simp⟩
  | cons e s ih =>
      obtain ⟨t, tbl⟩ := e
      intro cur acc hsafe hnd hfresh
      obtain ⟨hname, hkeys, hkeynd⟩ := hsafe (t, tbl) (by simp)
      obtain ⟨htne, _, _⟩ := iniSafeName_spec hname
      have hget : objGet acc t = none := hfresh (t, tbl) (by simp)
      simp only [List.flatMap_cons, List.cons_append, List.foldl_cons]
      rw [show ('[' :: (t.data ++ [']'])) = '[' :: t.data ++ [']'] from rfl]
      rw [parseLine_header, if_neg (by simp [objHas, hget])]
      rw [List.foldl_append]
      rw [fold_kvs tbl acc t [] hkeys hkeynd htne hget (fun e _ => rfl)]
      rw [List.nil_append]
      obtain ⟨cur', hrest⟩ := ih (some t) (acc ++ [(t, tbl)])
        (fun e he => hsafe e (by simp [he]))
        (by rw [List.map_cons, List.nodup_cons] at hnd; exact hnd.2)
        (fun e he => by
          have het : e.1 ≠ t := by
            intro het
            rw [List.map_cons, List.nodup_cons] at hnd
            have hm : e.1 ∈ List.map Prod.fst s := List.mem_map_of_mem Prod.fst he
            rw [het] at hm
            exact hnd.1 hm
          rw [objGet_append_singleton_ne acc t e.1 tbl het]
          exact hfresh e (by simp [he]))
      refine ⟨cur', ?_⟩
      simp only [List.cons_append] at hrest
      rw [hrest]
      simp

end INI

/-- The serialized INI text of a (possibly empty) list of sections
starts with `[` or is empty — never with CR/LF. -/
theorem sections_stream_head (s : Store JValue) :
    (s.flatMap (fun e => INI.sectionChars e.1 e.2)).head?.all (fun c => !isNL c) = true := by
  cases s with
  | nil => rfl
  | cons e s => rfl

/-- Line structure of the serialized body of one section. -/
theorem splitNL_kvstream (tbl : Dict JValue) : ∀ (rest : List Char),
    (∀ e ∈ tbl, iniSafeKey e.1 = true) →
    rest.head?.all (fun c => !isNL c) = true →
    splitNL ((tbl.flatMap (fun kv =>
          kv.1.data ++ ' ' :: '=' :: ' ' :: (JSON.valChars kv.2 ++ ['\x0a']))
        ++ '\x0a' :: rest).dropWhile isNL)
      = tbl.map (fun kv => kvChars kv.1 kv.2) ++ splitNL rest := by
  induction tbl with
  | nil =>
      intro rest _ hrest
      simp only [List.flatMap_nil, List.nil_append, List.map_nil]
      rw [List.dropWhile_cons, if_pos (by decide), dropWhile_isNL_eq_self rest hrest]
  | cons kv tbl ih =>
      obtain ⟨k, v⟩ := kv
      intro rest hsafe hrest
      obtain ⟨hne, hall, hhd, _⟩ := INI.iniSafeKey_spec (hsafe (k, v) (by simp))
      obtain ⟨c0, t0, hk0⟩ := List.exists_cons_of_ne_nil hne
      have hc0 : isNL c0 = false :=
        isNL_eq_false_of_isJsWs (hhd c0 (by rw [hk0]; rfl)).1
      have hline_nl : ∀ c ∈ kvChars k v, isNL c = false := by
        intro c hc
        rw [kvChars] at hc
        rcases List.mem_append.mp hc with hc | hc
        · exact (hall c hc).1
        rcases List.mem_cons.mp hc with rfl | hc
        · decide
        rcases List.mem_cons.mp hc with rfl | hc
        · decide
        rcases List.mem_cons.mp hc with rfl | hc
        · decide
        · exact valChars_no_nl v c hc
      simp only [List.flatMap_cons]
      rw [List.append_assoc]
      rw [show (k.data ++ ' ' :: '=' :: ' ' :: (JSON.valChars v ++ ['\x0a']))
            ++ (tbl.flatMap (fun kv =>
                kv.1.data ++ ' ' :: '=' :: ' ' :: (JSON.valChars kv.2 ++ ['\x0a']))
              ++ '\x0a' :: rest)
          = kvChars k v ++ '\x0a'
            :: (tbl.flatMap (fun kv =>
                kv.1.data ++ ' ' :: '=' :: ' ' :: (JSON.valChars kv.2 ++ ['\x0a']))
              ++ '\x0a' :: rest) from by rw [kvChars]; simp]
      rw [dropWhile_isNL_eq_self _ (by
        rw [kvChars, hk0]
        simp only [List.cons_append, List.head?_cons, Option.all_some]
        simp [hc0])]
      rw [splitNL_append_line (kvChars k v) _ hline_nl]
      rw [ih rest (fun e he => hsafe e (by simp [he])) hrest]
      simp

/-- Line structure of the full serialized INI text: the headers and
`key = value` lines in order, then one final empty line from the
trailing newline run. -/
theorem splitNL_sections (s : Store JValue) :
    (∀ e ∈ s, iniSafeName e.1 = true ∧ ∀ kv ∈ e.2, iniSafeKey kv.1 = true) →
    splitNL (s.flatMap (fun e => INI.sectionChars e.1 e.2))
      = s.flatMap (fun e =>
          ('[' :: e.1.data ++ [']']) :: e.2.map (fun kv => kvChars kv.1 kv.2))
        ++ [[]] := by
  induction s with
  | nil => intro _; rfl
  | cons e s ih =>
      obtain ⟨t, tbl⟩ := e
      intro hsafe
      obtain ⟨hname, hkeys⟩ := hsafe (t, tbl) (by simp)
      obtain ⟨_, htne, htnl⟩ := iniSafeName_spec hname
      have hhdr_nl : ∀ c ∈ '[' :: t.data ++ [']'], isNL c = false := by
        intro c hc
        rcases List.mem_append.mp hc with hc | hc
        · rcases List.mem_cons.mp hc with rfl | hc
          · decide
          · exact htnl c hc
        · simp at hc; rw [hc]; decide
      simp only [List.flatMap_cons]
      rw [show INI.sectionChars t tbl ++ s.flatMap (fun e => INI.sectionChars e.1 e.2)
          = ('[' :: t.data ++ [']']) ++ '\x0a'
            :: (tbl.flatMap (fun kv =>
                kv.1.data ++ ' ' :: '=' :: ' ' :: (JSON.valChars kv.2 ++ ['\x0a']))
              ++ '\x0a' :: s.flatMap (fun e => INI.sectionChars e.1 e.2)) from by
        rw [INI.sectionChars]; simp]
      rw [splitNL_append_line _ _ hhdr_nl]
      rw [splitNL_kvstream tbl _ hkeys (sections_stream_head s)]
      rw [ih (fun e he => hsafe e (by simp [he]))]
      simp

/-! ### Record-log round trip (`flush` then `init`) -/

/-- Decoding the exact record line the flush writer emits. -/
theorem decodeRecord_recordChars (t k : String) (v : JValue) :
    TxtDBCache.decodeRecord ⟨TxtDBCache.recordChars t k v⟩ = some (t, k, v) := by
  rw [TxtDBCache.decodeRecord,
    show (⟨TxtDBCache.recordChars t k v⟩ : String)
      = JSON.stringify (.arr [.str t, .str k, v]) from rfl,
    JSON.parse_stringify]

/-- A record line is non-empty. -/
theorem recordChars_ne_nil (t k : String) (v : JValue) :
    TxtDBCache.recordChars t k v ≠ [] := by
  rw [TxtDBCache.recordChars]
  simp [JSON.valChars]

/-- A record line contains no CR/LF. -/
theorem recordChars_no_nl (t k : String) (v : JValue) :
    ∀ c ∈ TxtDBCache.recordChars t k v, isNL c = false := by
  intro c hc
  rw [TxtDBCache.recordChars] at hc
  exact valChars_no_nl _ c hc

/-- Loading one record line writes through `tableSet`. -/
theorem loadLine_record (st : Store JValue × Nat) (t k : String) (v : JValue) :
    TxtDBCache.loadLine st (TxtDBCache.recordChars t k v)
      = (TxtDBCache.tableSet st.1 t k v, st.2) := by
  rw [TxtDBCache.loadLine, if_neg (recordChars_ne_nil t k v), decodeRecord_recordChars]

/-- Line structure of a flushed record log: the records in order, then
one final empty line. -/
theorem splitNL_records (recs : List (List Char))
    (h : ∀ l ∈ recs, (∀ c ∈ l, isNL c = false) ∧ l ≠ []) :
    splitNL (recs.flatMap (fun l => l ++ ['\x0a'])) = recs ++ [[]] := by
  induction recs with
  | nil => rfl
  | cons l recs ih =>
      simp only [List.flatMap_cons]
      rw [show (l ++ ['\x0a']) ++ recs.flatMap (fun l => l ++ ['\x0a'])
          = l ++ '\x0a' :: recs.flatMap (fun l => l ++ ['\x0a']) from by simp]
      rw [splitNL_append_line l _ (h l (by simp)).1]
      have hdrop : (recs.flatMap (fun l => l ++ ['\x0a'])).dropWhile isNL
          = recs.flatMap (fun l => l ++ ['\x0a']) := by
        apply dropWhile_isNL_eq_self
        cases recs with
        | nil => rfl
        | cons l2 rs =>
            obtain ⟨c2, t2, hl2⟩ := List.exists_cons_of_ne_nil (h l2 (by simp)).2
            have hc2 : isNL c2 = false := (h l2 (by simp)).1 c2 (by rw [hl2]; simp)
            simp only [List.flatMap_cons, hl2, List.cons_append, List.head?_cons,
              Option.all_some]
            simp [hc2]
      rw [hdrop, ih (fun e he => h e (by simp [he]))]
      simp

/-- The flushed text is the newline-join of the record lines. -/
theorem flatMap_records (store : Store JValue) :
    store.flatMap (fun e =>
        e.2.flatMap (fun kv => TxtDBCache.recordChars e.1 kv.1 kv.2 ++ ['\x0a']))
      = (store.flatMap (fun e =>
          e.2.map (fun kv => TxtDBCache.recordChars e.1 kv.1 kv.2))).flatMap
        (fun l => l ++ ['\x0a']) := by
  induction store with
  | nil => rfl
  | cons e s ih =>
      obtain ⟨t, tbl⟩ := e
      simp only [List.flatMap_cons, List.flatMap_append]
      rw [ih]
      congr 1
      induction tbl with
      | nil => rfl
      | cons kv tbl ih2 =>
          simp only [List.flatMap_cons, List.map_cons]
          rw [ih2]

/-- Replaying the records of a fresh table after its first one appends
the remaining pairs in order. -/
theorem load_kvs_txt (kvs : Dict JValue) : ∀ (acc : Store JValue) (t : String)
    (part : Dict JValue) (w : Nat),
    (kvs.map Prod.fst).Nodup →
    objGet acc t = none →
    (∀ e ∈ kvs, objGet part e.1 = none) →
    List.foldl TxtDBCache.loadLine (acc ++ [(t, part)], w)
        (kvs.map (fun kv => TxtDBCache.recordChars t kv.1 kv.2))
      = (acc ++ [(t, part ++ kvs)], w) := by
  induction kvs with
  | nil => intro acc t part w _ _ _; simp
  | cons kv kvs ih =>
      obtain ⟨k, v⟩ := kv
      intro acc t part w hnd hacct hfresh
      simp only [List.map_cons, List.foldl_cons]
      rw [loadLine_record]
      rw [show (acc ++ [(t, part)], w).1 = acc ++ [(t, part)] from rfl,
        show ((acc ++ [(t, part)], w) : Store JValue × Nat).2 = w from rfl]
      rw [TxtDBCache.tableSet, objGet_append_right acc t part hacct, Option.getD_some]
      rw [objSet_fresh part k v (hfresh (k, v) (by simp))]
      rw [objSet_append_right acc t part (part ++ [(k, v)]) hacct]
      have hstep := ih acc t (part ++ [(k, v)]) w
        (by rw [List.map_cons, List.nodup_cons] at hnd; exact hnd.2)
        hacct
        (fun e he => by
          have hek : e.1 ≠ k := by
            intro hek
            rw [List.map_cons, List.nodup_cons] at hnd
            have hm : e.1 ∈ List.map Prod.fst kvs := List.mem_map_of_mem Prod.fst he
            rw [hek] at hm
            exact hnd.1 hm
          rw [objGet_append_singleton_ne part k e.1 v hek]
          exact hfresh e (by simp [he]))
      rw [hstep]
      simp

/-- Replaying the record lines of all tables in flush order rebuilds
the store, provided no table is empty (an empty table has no record)
and names and keys are unique. -/
theorem load_tables (s : Store JValue) : ∀ (acc : Store JValue) (w : Nat),
    (s.map Prod.fst).Nodup →
    (∀ e ∈ s, (e.2.map Prod.fst).Nodup) →
    (∀ e ∈ s, e.2 ≠ []) →
    (∀ e ∈ s, objGet acc e.1 = none) →
    List.foldl TxtDBCache.loadLine (acc, w)
        (s.flatMap (fun e => e.2.map (fun kv => TxtDBCache.recordChars e.1 kv.1 kv.2)))
      = (acc ++ s, w) := by
  induction s with
  | nil => intro acc w _ _ _ _; simp
  | cons e s ih =>
      obtain ⟨t, tbl⟩ := e
      intro acc w hnd htnd hne hfresh
      have hget : objGet acc t = none := hfresh (t, tbl) (by simp)
      obtain ⟨kv1, tbl', htbl0⟩ := List.exists_cons_of_ne_nil (hne (t, tbl) (by simp))
      obtain ⟨k1, v1⟩ := kv1
      have htbl : tbl = (k1, v1) :: tbl' := htbl0
      have htbnd : (tbl.map Prod.fst).Nodup := htnd (t, tbl) (by simp)
      rw [htbl] at htbnd
      rw [List.map_cons, List.nodup_cons] at htbnd
      simp only [List.flatMap_cons]
      rw [htbl]
      simp only [List.map_cons, List.cons_append, List.foldl_cons]
      rw [loadLine_record]
      rw [show ((acc, w) : Store JValue × Nat).1 = acc from rfl,
        show ((acc, w) : Store JValue × Nat).2 = w from rfl]
      rw [TxtDBCache.tableSet, hget]
      rw [show (none : Option (Dict JValue)).getD [] = [] from rfl]
      rw [show objSet ([] : Dict JValue) k1 v1 = [(k1, v1)] from rfl]
      rw [objSet_fresh acc t [(k1, v1)] hget]
      rw [List.foldl_append]
      rw [load_kvs_txt tbl' acc t [(k1, v1)] w htbnd.2 hget
        (fun e he => by
          have hek : e.1 ≠ k1 := by
            intro hek
            have hm : e.1 ∈ List.map Prod.fst tbl' := List.mem_map_of_mem Prod.fst he
            rw [hek] at hm
            exact htbnd.1 hm
          have hk1e : k1 ≠ e.1 := Ne.symm hek
          simp [objGet, hk1e])]
      rw [show ([(k1, v1)] : Dict JValue) ++ tbl' = (k1, v1) :: tbl' from rfl, ← htbl]
      have hrest := ih (acc ++ [(t, tbl)]) w
        (by rw [List.map_cons, List.nodup_cons] at hnd; exact hnd.2)
        (fun e he => htnd e (by simp [he]))
        (fun e he => hne e (by simp [he]))
        (fun e he => by
          have het : e.1 ≠ t := by
            intro het
            rw [List.map_cons, List.nodup_cons] at hnd
            have hm : e.1 ∈ List.map Prod.fst s := List.mem_map_of_mem Prod.fst he
            rw [het] at hm
            exact hnd.1 hm
          rw [objGet_append_singleton_ne acc t e.1 tbl het]
          exact hfresh e (by simp [he]))
      rw [hrest]
      simp

/-- C5 (amended): exact encode-then-decode round trips for the two
file codecs, under the conditions the counterexample forces.  INI
side: a store with unique table names and keys, non-empty newline-free
table names, and `iniSafeKey` keys parses from its own serialization
exactly.  Record-log side: a store with unique table names and keys
and no empty table (an empty table writes no record line) reloads from
its own flushed text exactly, with values unrestricted in both. -/
theorem codec_roundtrip_amended :
    (∀ s : Store JValue, storeWF s →
        (∀ e ∈ s, iniSafeName e.1 = true ∧ ∀ kv ∈ e.2, iniSafeKey kv.1 = true) →
        IniDBCache.load (IniDBCache.flushContent s) = s)
  ∧ (∀ s : Store JValue, storeWF s → (∀ e ∈ s, e.2 ≠ []) →
        (TxtDBCache.load (TxtDBCache.flushContent s)).1 = s) := by
  constructor
  · intro s hwf hsafe
    rw [IniDBCache.load, IniDBCache.flushContent, INI.parse, INI.stringify]
    rw [show (⟨s.flatMap fun e => INI.sectionChars e.1 e.2⟩ : String).data
        = s.flatMap fun e => INI.sectionChars e.1 e.2 from rfl]
    rw [splitNL_sections s hsafe]
    obtain ⟨cur', hfold⟩ := INI.fold_sections s none []
      (fun e he => ⟨(hsafe e he).1, (hsafe e he).2, hwf.2 e he⟩)
      hwf.1
      (fun e _ => rfl)
    rw [INI.parseLines, List.foldl_append, hfold, List.foldl_cons, List.foldl_nil,
      INI.parseLine_empty]
    simp
  · intro s hwf hne
    have hrecs : ∀ l ∈ s.flatMap (fun e =>
          e.2.map fun kv => TxtDBCache.recordChars e.1 kv.1 kv.2),
        (∀ c ∈ l, isNL c = false) ∧ l ≠ [] := by
      intro l hl
      obtain ⟨e, he, hl2⟩ := List.mem_flatMap.mp hl
      obtain ⟨kv, hkv, hl3⟩ := List.mem_map.mp hl2
      rw [← hl3]
      exact ⟨recordChars_no_nl e.1 kv.1 kv.2, recordChars_ne_nil e.1 kv.1 kv.2⟩
    rw [TxtDBCache.load,
      show (TxtDBCache.flushContent s).data
        = s.flatMap (fun e =>
            e.2.flatMap fun kv => TxtDBCache.recordChars e.1 kv.1 kv.2 ++ ['\x0a'])
        from rfl,
      flatMap_records s,
      splitNL_records _ hrecs,
      TxtDBCache.loadLines, List.foldl_append,
      load_tables s [] 0 hwf.1 (fun e he => hwf.2 e he) hne (fun e _ => rfl),
      List.foldl_cons, List.foldl_nil,
      show TxtDBCache.loadLine ([] ++ s, 0) [] = ([] ++ s, 0) from by
        simp [TxtDBCache.loadLine]]
    simp

/-- C5 counterexample: the unrestricted claim is false — a table name
containing a newline breaks the INI round trip: the serialized header
spans two lines, neither line reopens a section, and the parser
returns the empty store. -/
theorem codec_roundtrip_counterexample :
    INI.parse (INI.stringify [("a\nb", [("k", JValue.num 1)])])
      ≠ [("a\nb", [("k", JValue.num 1)])] := by
  intro h
  rw [show INI.parse (INI.stringify [("a\nb", [("k", JValue.num 1)])]) = [] from rfl] at h
  exact List.noConfusion h

/-- C5 witness: a concrete one-table store round-trips through both
file codecs. -/
theorem codec_roundtrip_amended_witness :
    IniDBCache.load (IniDBCache.flushContent [("t", [("k", JValue.num 5)])])
        = [("t", [("k", JValue.num 5)])]
  ∧ (TxtDBCache.load (TxtDBCache.flushContent [("t", [("k", JValue.num 5)])])).1
        = [("t", [("k", JValue.num 5)])] :=
  ⟨codec_roundtrip_amended.1 [("t", [("k", JValue.num 5)])] (by decide) (by decide),
   codec_roundtrip_amended.2 [("t", [("k", JValue.num 5)])] (by decide)
     (by intro e he; rw [List.mem_singleton] at he; rw [he]; simp)⟩
